import Mathlib

set_option maxRecDepth 8000

/-!
Verification development for the charset pipeline of this repository
(`extend-charset.js` and `analyze-charset.js`).

Text is modelled as `List Char` (the source only handles BMP code points,
where JavaScript UTF-16 code units coincide with code points).  JavaScript
`Set`/`Map` objects are modelled as insertion-ordered duplicate-free lists
and association lists.  The two external capabilities consumed by the core
(`cnchar` stroke queries and locale collation via `localeCompare`) are
modelled as parameters: a `CncharAPI` record of query results per character
and a boolean comparison function `collLe`.  JavaScript numbers returned by
the stroke query are modelled as integers; a `NaN` result behaves in both
scripts exactly like a non-numeric result (it fails the `> 0` and
`Number.isFinite` guards), so it is folded into `StrokeRes.invalid`.
-/

abbrev JStr := List Char

abbrev CharSet := List Char

/-- The character class of the JavaScript `\s` regex escape (and of
`String.prototype.trim`): whitespace plus line terminators. -/
def jsIsWs (c : Char) : Bool :=
  c = ' ' || c = '\t' || c = '\n' || c = '\r' ||
  c.toNat = 0x0b || c.toNat = 0x0c || c.toNat = 0xa0 || c.toNat = 0x1680 ||
  (0x2000 ≤ c.toNat && c.toNat ≤ 0x200a) || c.toNat = 0x2028 || c.toNat = 0x2029 ||
  c.toNat = 0x202f || c.toNat = 0x205f || c.toNat = 0x3000 || c.toNat = 0xfeff

/-- The `\d` regex class. -/
def isDig (c : Char) : Bool := '0' ≤ c && c ≤ '9'

/-- JavaScript line terminators, which the regex `.` does not match. -/
def isLineTerm (c : Char) : Bool :=
  c = '\n' || c = '\r' || c.toNat = 0x2028 || c.toNat = 0x2029

/-- The character class `[画\s]` used by the line pattern of
`parseExistingChars` in `extend-charset.js`. -/
def classChar (c : Char) : Bool := c = '画' || jsIsWs c

/-- `String.prototype.trimStart`. -/
def jsTrimLeft (l : JStr) : JStr := l.dropWhile jsIsWs

/-- `String.prototype.trimEnd`. -/
def jsTrimRight (l : JStr) : JStr := (l.reverse.dropWhile jsIsWs).reverse

/-- `String.prototype.trim`. -/
def jsTrim (l : JStr) : JStr := jsTrimRight (jsTrimLeft l)

/-- `split` on a single separator character, keeping empty segments,
like JavaScript `String.prototype.split` with a one-character separator. -/
def splitOnChar (sep : Char) : JStr → List JStr
  | [] => [[]]
  | c :: t =>
    if c = sep then [] :: splitOnChar sep t
    else
      match splitOnChar sep t with
      | s :: ss => (c :: s) :: ss
      | [] => [[c]]

/-- Remove a single trailing carriage return. -/
def stripCR (l : JStr) : JStr :=
  match l.reverse with
  | '\r' :: t => t.reverse
  | _ => l

/-- Apply `f` to every element except the last. -/
def mapButLast (f : JStr → JStr) : List JStr → List JStr
  | [] => []
  | [x] => [x]
  | x :: y :: t => f x :: mapButLast f (y :: t)

/-- `text.split(/\r?\n/)`: split on newlines; a carriage return immediately
before a newline is consumed with it (segments not followed by a newline
keep their trailing carriage return). -/
def splitLinesCRLF (text : JStr) : List JStr :=
  mapButLast stripCR (splitOnChar '\n' text)

/-- `s.replace(/\s+/g, ' ')`: collapse every whitespace run to one space. -/
def normWs : JStr → JStr
  | [] => []
  | [c] => if jsIsWs c then [' '] else [c]
  | c :: d :: t =>
    if jsIsWs c then
      if jsIsWs d then normWs (d :: t) else ' ' :: normWs (d :: t)
    else c :: normWs (d :: t)

/-- `s.split(' ')` on a single space. -/
def splitSpace : JStr → List JStr := splitOnChar ' '

/-- The maximal runs of non-separator characters, i.e. the non-empty
segments of a JavaScript `split` on a separator-run regex such as
`/[\s,]+/`. -/
def chunksOf (p : Char → Bool) : JStr → List JStr
  | [] => []
  | [c] => if p c then [] else [[c]]
  | c :: d :: t =>
    if p c then chunksOf p (d :: t)
    else if p d then [c] :: chunksOf p (d :: t)
    else
      match chunksOf p (d :: t) with
      | ch :: rest => (c :: ch) :: rest
      | [] => [[c]]

/-- `hay.indexOf(needle)`: index of the first occurrence, if any. -/
def firstOcc : JStr → JStr → Option Nat
  | [], needle => if needle = [] then some 0 else none
  | c :: t, needle =>
    if needle.isPrefixOf (c :: t) then some 0
    else (firstOcc t needle).map (fun i => i + 1)

/-- JavaScript `Set.prototype.add`: append if absent (insertion order). -/
def setInsert (s : CharSet) (c : Char) : CharSet :=
  if s.contains c then s else s ++ [c]

/-- Add every element of a list to a set, in order. -/
def addAll (s : CharSet) (l : List Char) : CharSet := l.foldl setInsert s

/-! ### The external stroke-count capability (`cnchar`)

`cnchar.stroke(ch)` can return a finite number, return a non-numeric value
(or `NaN`), or throw; `cnchar.stroke(ch, 'order')` can return an array of
stroke-order strings, return a non-array, or throw. -/

inductive StrokeRes where
  | num (n : Int)
  | invalid
  | thrown
deriving DecidableEq

inductive OrderRes where
  | arr (xs : List JStr)
  | invalid
  | thrown
deriving DecidableEq

structure CncharAPI where
  stroke : Char → StrokeRes
  order : Char → OrderRes

/-- The fallback branch of `strokeOf` in `extend-charset.js`: a non-empty
decomposition array yields `order[0].length`, anything else yields
`undefined` (exceptions are caught and also yield `undefined`). -/
def extendFallback (api : CncharAPI) (ch : Char) : Option Int :=
  match api.order ch with
  | OrderRes.arr (x :: _) => some (x.length : Int)
  | OrderRes.arr [] => none
  | OrderRes.invalid => none
  | OrderRes.thrown => none

/-- `strokeOf` in `extend-charset.js`: direct count if it is a number `> 0`;
otherwise the fallback; an exception from the direct query is caught and
returns `undefined` without attempting the fallback. -/
def extendStrokeOf (api : CncharAPI) (ch : Char) : Option Int :=
  match api.stroke ch with
  | StrokeRes.num n => if 0 < n then some n else extendFallback api ch
  | StrokeRes.invalid => extendFallback api ch
  | StrokeRes.thrown => none

/-- The fallback branch of `strokeOf` in `analyze-charset.js`: a non-empty
decomposition array yields `order.length` (the number of entries). -/
def analyzeFallback (api : CncharAPI) (ch : Char) : Option Int :=
  match api.order ch with
  | OrderRes.arr (x :: xs) => some ((x :: xs).length : Int)
  | OrderRes.arr [] => none
  | OrderRes.invalid => none
  | OrderRes.thrown => none

/-- `strokeOf` in `analyze-charset.js`: each of the two queries is wrapped
in its own `try`, so a throwing direct query still reaches the fallback. -/
def analyzeStrokeOf (api : CncharAPI) (ch : Char) : Option Int :=
  match api.stroke ch with
  | StrokeRes.num n => if 0 < n then some n else analyzeFallback api ch
  | StrokeRes.invalid => analyzeFallback api ch
  | StrokeRes.thrown => analyzeFallback api ch

/-! ### CharsetLoader: `parseExistingChars` -/

/-- The tail of a match of `^(\d+)[画\s]*\t(.+)$` against the part of the
line after the leading digits: regex backtracking finds the largest `k`
such that the first `k` characters lie in `[画\s]`, position `k` holds a
tab, and at least one character follows, none of which is a line
terminator (`.` does not match those). -/
def regexTail (rest : JStr) : Option JStr :=
  (List.range (rest.takeWhile classChar).length).reverse.findSome? (fun k =>
    match rest.drop k with
    | c :: m2 =>
      if c = '\t' ∧ m2 ≠ [] ∧ (∀ x ∈ m2, isLineTerm x = false) then some m2 else none
    | [] => none)

/-- `line.match(/^(\d+)[画\s]*\t(.+)$/)`, returning the second capture. -/
def matchLine (line : JStr) : Option JStr :=
  if line.takeWhile isDig = [] then none
  else regexTail (line.dropWhile isDig)

/-- `m[2].replace(/\s+/g, ' ').trim().split(' ')`. -/
def lineTokens (m2 : JStr) : List JStr := splitSpace (jsTrim (normWs m2))

/-- Processing of one token: only single-character tokens are added
(`if (!ch) continue; if (ch.length === 1) charSet.add(ch)`). -/
def tokStep (s : CharSet) (tok : JStr) : CharSet :=
  match tok with
  | [c] => setInsert s c
  | _ => s

/-- Processing of one line of the document. -/
def lineStep (s : CharSet) (line : JStr) : CharSet :=
  match matchLine line with
  | none => s
  | some m2 => (lineTokens m2).foldl tokStep s

/-- `parseExistingChars` in `extend-charset.js`: over each line matching
the pattern, add every single-character token to the set. -/
def parseExistingChars (text : JStr) : CharSet :=
  (splitLinesCRLF text).foldl lineStep []

/-! ### CandidateAggregator: heuristic pool -/

/-- The literal candidate list of `extend-charset.js` (before its
`replace(/\s+/g, '')`). -/
def heuristicSource : String :=
  "哼 暧 囧 嗷 嗨 咦 呃 咔 咚 咻 咩 嗯 噗 咣 咔 吧 呗 嘤 嗝 嚯 窝 砍 缤 霾 夸 炫 酷 撩 佛 系 躺 平 内 卷 打 卡 种 草 布 道 赛 道 流 量 出 圈 破 圈 踩 雷 埋 雷 踩 坑 围 观 抄 袭 复 盘 拆 解 种 子 赋 能 互 联 网 算 法 模 型 数据 集 语 料 库 工 业 化 数 字 化 智 能 化 算 力 凯 撒 朵 拉 赵 钱 孙 李 周 吴 郑 王 军 磊 芳 娟 雪 霞 丹 静 冰 彤 俊 杰 博 文 子 轩 梓 萱 沛 文 沛 琳 可 可 乐 乐 妍 妍 昕 祺 祎 臻 宸 皓 轩 皓 宇 皓 天 博 学 浦 东 徐 汇 闵 行 嘉 定 松 江 青 浦 奉 贤 杨 浦 普 陀 虹 口 长 宁 黄 浦 静 安 朝 阳 海 淀 昌 平 顺 义 丰 台 石 景 山 东 城 西 城 天 河 越 秀 海 珠 番 禺 南 沙 黄 埔 白 云 梧 州 桂 林 柳 州 北 海 钦 州 防 城 港 崇 左 东 兴 珠 海 中 山 汕 头 汕 尾 梁 山 江 汉 江 岸 江 夏 硚 口 武 昌 汉 阳 青 山 洪 山 蔡 坪 星 链 区 块 切 片 深 度 学 习 强 化 学 习 迁 移 学 习 联 邦 学 习 参 数 梯 度 权 重 向 量 代 码 仓 软 件 包 管 理 器 接 口 协 议 代 理 服 务 虚 拟 化 容 器 镜 像 云 原 生 边 缘 计 算 物 联 网 数 据 库 缓 存 消 息 队 列 中 间 件 微 服 务 网 关 鉴 权 加 密 解 密 编 码 解 码 字 节 流 式 套 接 字 全 栈 前 端 后 端 中 台 端 到 端 千 层 饼 基 建 可 观 测 性 压 测 稳 态 灰 度 金 且 策 略"

/-- `heuristicCandidates`: the literal with all whitespace removed. -/
def heuristicCandidates : JStr :=
  heuristicSource.data.filter (fun c => !(jsIsWs c))

/-- `buildCandidateSet` in `extend-charset.js`.  Iterating a string yields
single code points, so the `ch.length === 1` guard always holds here. -/
def buildCandidateSet : CharSet :=
  heuristicCandidates.foldl setInsert []

/-! ### StrokeClassifier: `groupByStroke` -/

/-- A JavaScript `Map` from stroke count to character set, modelled as an
insertion-ordered association list. -/
abbrev StrokeMap := List (Int × CharSet)

/-- `map.get(n).add(ch)`, creating the entry if absent (new keys go to the
end, matching `Map` insertion order). -/
def mapInsert (m : StrokeMap) (n : Int) (ch : Char) : StrokeMap :=
  match m with
  | [] => [(n, [ch])]
  | (k, s) :: rest =>
    if k = n then (k, setInsert s ch) :: rest else (k, s) :: mapInsert rest n ch

/-- One step of `groupByStroke`: characters whose `strokeOf` is
`undefined` or `0` (the falsy values it can produce) are skipped. -/
def gbsStep (api : CncharAPI) (m : StrokeMap) (ch : Char) : StrokeMap :=
  match extendStrokeOf api ch with
  | none => m
  | some n => if n = 0 then m else mapInsert m n ch

/-- `groupByStroke` in `extend-charset.js`. -/
def groupByStroke (api : CncharAPI) (chars : CharSet) : StrokeMap :=
  chars.foldl (gbsStep api) []

def keysOf (m : StrokeMap) : List Int := m.map Prod.fst

/-- `strokeMap.get(k)` for a key taken from the map. -/
def lookupB (m : StrokeMap) (n : Int) : CharSet := (List.lookup n m).getD []

/-- All characters appearing in some bucket, in map order. -/
def charsOf (m : StrokeMap) : CharSet := (m.map Prod.snd).flatten

/-- `.sort((a, b) => a - b)` on numeric keys. -/
def sortKeysAsc (l : List Int) : List Int :=
  List.insertionSort (fun a b => a ≤ b) l

/-- The ordering induced by the external collation `collLe`
(`localeCompare` with the `zh-Hans-CN` locale in the source). -/
def collRel (collLe : Char → Char → Bool) : Char → Char → Prop :=
  fun a b => collLe a b = true

instance instDecCollRel (collLe : Char → Char → Bool) : DecidableRel (collRel collLe) :=
  fun a b => inferInstanceAs (Decidable (collLe a b = true))

/-- `list.sort((a, b) => a.localeCompare(b, 'zh-Hans-CN'))`. -/
def sortBucket (collLe : Char → Char → Bool) (b : CharSet) : List Char :=
  List.insertionSort (collRel collLe) b

/-- The `total` reduce in `main`: sum of bucket sizes over the sorted keys. -/
def totalCount (m : StrokeMap) : Nat :=
  (sortKeysAsc (keysOf m)).foldl (fun acc k => acc + (lookupB m k).length) 0

/-! ### Formatter: `formatOutput` -/

def digitChar : Nat → Char
  | 0 => '0'
  | 1 => '1'
  | 2 => '2'
  | 3 => '3'
  | 4 => '4'
  | 5 => '5'
  | 6 => '6'
  | 7 => '7'
  | 8 => '8'
  | _ => '9'

def decGo : Nat → Nat → JStr → JStr
  | 0, _, acc => acc
  | fuel + 1, n, acc =>
    if n = 0 then acc else decGo fuel (n / 10) (digitChar (n % 10) :: acc)

/-- Decimal representation of a natural number. -/
def decRepr (n : Nat) : JStr := if n = 0 then ['0'] else decGo n n []

/-- The decimal string interpolation of a JavaScript number key. -/
def intStr (k : Int) : JStr :=
  if k < 0 then '-' :: decRepr (-k).toNat else decRepr k.toNat

/-- `list.join(' ')` over one-character strings. -/
def joinSpace (l : List Char) : JStr := List.intersperse ' ' l

def anchorHeaderS : String := "1000 个次常用字大全"

/-- The prefix anchor substring located by `formatOutput`. -/
def anchorHeader : JStr := anchorHeaderS.data

def anchorDigitsS : String := "1234567890"

/-- The suffix anchor substring located by `formatOutput`. -/
def anchorDigits : JStr := anchorDigitsS.data

/-- The preserved prefix: the trimmed text strictly before the first
occurrence of the header anchor, or empty when the anchor is absent. -/
def prefixRegion (raw : JStr) : JStr :=
  match firstOcc raw anchorHeader with
  | some i => jsTrim (raw.take i)
  | none => []

/-- The preserved suffix: the trimmed text from the first occurrence of the
digits anchor on, or empty when the anchor is absent. -/
def suffixRegion (raw : JStr) : JStr :=
  match firstOcc raw anchorDigits with
  | some i => jsTrim (raw.drop i)
  | none => []

/-- One body line: `<n>画<TAB><space-joined sorted bucket><newline>`. -/
def lineOf (collLe : Char → Char → Bool) (m : StrokeMap) (n : Int) : JStr :=
  intStr n ++ '画' :: '\t' :: joinSpace (sortBucket collLe (lookupB m n)) ++ ['\n']

/-- The body: one line per key in ascending stroke order. -/
def bodyOf (collLe : Char → Char → Bool) (m : StrokeMap) : JStr :=
  (sortKeysAsc (keysOf m)).foldl (fun acc n => acc ++ lineOf collLe m n) []

/-- `formatOutput` in `extend-charset.js`. -/
def formatOutput (collLe : Char → Char → Bool) (m : StrokeMap) (raw : JStr) : JStr :=
  jsTrim (prefixRegion raw ++ '\n' :: '\n' :: bodyOf collLe m ++
    '\n' :: '\n' :: suffixRegion raw) ++ ['\n']

/-! ### SelectionPolicy: the truncation loop in `main` -/

/-- Inner loop: `for (const ch of list) { if (picked.size >= limit) break;
picked.add(ch); }`. -/
def pickBucket (limit : Nat) (picked : CharSet) : List Char → CharSet
  | [] => picked
  | ch :: rest =>
    if limit ≤ picked.length then picked
    else pickBucket limit (setInsert picked ch) rest

/-- Outer loop over the sorted keys, with its early `break`. -/
def pickKeys (collLe : Char → Char → Bool) (limit : Nat) (m : StrokeMap) :
    List Int → CharSet → CharSet
  | [], picked => picked
  | k :: rest, picked =>
    let picked' := pickBucket limit picked (sortBucket collLe (lookupB m k))
    if limit ≤ picked'.length then picked'
    else pickKeys collLe limit m rest picked'

def pickAll (collLe : Char → Char → Bool) (limit : Nat) (m : StrokeMap) : CharSet :=
  pickKeys collLe limit m (sortKeysAsc (keysOf m)) []

/-- The truncation step of `main`: when the bucketed total exceeds the
limit, pick the first `limit` characters by (stroke, collation) and regroup
them; otherwise the map is left unchanged. -/
def runSelection (api : CncharAPI) (collLe : Char → Char → Bool) (limit : Nat)
    (m : StrokeMap) : StrokeMap :=
  if limit < totalCount m then groupByStroke api (pickAll collLe limit m) else m

/-- Classification followed by selection, as `main` performs them. -/
def pipelineMap (api : CncharAPI) (collLe : Char → Char → Bool) (limit : Nat)
    (union : CharSet) : StrokeMap :=
  runSelection api collLe limit (groupByStroke api union)

/-- The full selection enumeration: buckets in ascending stroke order, each
sorted by collation. -/
def selOrder (collLe : Char → Char → Bool) (m : StrokeMap) : List Char :=
  ((sortKeysAsc (keysOf m)).map (fun k => sortBucket collLe (lookupB m k))).flatten

/-- The stroke key of a character (0 when unresolved). -/
def sKey (api : CncharAPI) (ch : Char) : Int := (extendStrokeOf api ch).getD 0

/-- The lexicographic (stroke count, collation) ordering used to state the
"L smallest" property. -/
def keyLe (api : CncharAPI) (collLe : Char → Char → Bool) (x y : Char) : Prop :=
  sKey api x < sKey api y ∨ (sKey api x = sKey api y ∧ collLe x y = true)

/-! ### Font extraction: `extractCharsFromFonts` -/

inductive QueryRes where
  | ok (codes : List Nat)
  | thrown
deriving DecidableEq

/-- A directory tree of font resources.  A `file` carries the outcome of
`fontkit.openSync` + `characterSet` on it: either the covered code points
or a thrown error. -/
inductive FsEntry where
  | file (name : JStr) (res : QueryRes)
  | dir (name : JStr) (entries : List FsEntry)

instance : Inhabited QueryRes := ⟨QueryRes.thrown⟩

instance : Inhabited FsEntry := ⟨FsEntry.file [] QueryRes.thrown⟩

/-- `path.extname` on a bare file name. -/
def jsExtname (name : JStr) : JStr :=
  match firstOcc name.reverse ['.'] with
  | some j => if name.length - 1 - j = 0 then [] else name.drop (name.length - 1 - j)
  | none => []

def asciiLower (c : Char) : Char :=
  if 'A' ≤ c && c ≤ 'Z' then Char.ofNat (c.toNat + 32) else c

def jsLower (l : JStr) : JStr := l.map asciiLower

/-- `exts.has(path.extname(it.name).toLowerCase())` with
`exts = {'.ttf', '.otf'}`. -/
def isFontExt (name : JStr) : Bool :=
  jsLower (jsExtname name) = ['.', 't', 't', 'f'] ||
  jsLower (jsExtname name) = ['.', 'o', 't', 'f']

def inBasicCJK (cp : Nat) : Bool := 0x4E00 ≤ cp && cp ≤ 0x9FFF

/-- Handling of one font file: skipped unless the extension matches; a
thrown open/query is caught and skipped; otherwise every covered code point
in the basic CJK block is added. -/
def codeStep (s : CharSet) (code : Nat) : CharSet :=
  if inBasicCJK code then setInsert s (Char.ofNat code) else s

def processFontFile (name : JStr) (res : QueryRes) (chars : CharSet) : CharSet :=
  if isFontExt name then
    match res with
    | QueryRes.ok codes => codes.foldl codeStep chars
    | QueryRes.thrown => chars
  else chars

mutual
/-- Recursive directory traversal of `extractCharsFromFonts` (the source
uses an explicit stack; the visit order only affects insertion order). -/
def extractEntry : FsEntry → CharSet → CharSet
  | FsEntry.file name res, chars => processFontFile name res chars
  | FsEntry.dir _ es, chars => extractEntries es chars
def extractEntries : List FsEntry → CharSet → CharSet
  | [], chars => chars
  | e :: rest, chars => extractEntries rest (extractEntry e chars)
end

/-- `extractCharsFromFonts` in `extend-charset.js`. -/
def extractCharsFromFonts (root : List FsEntry) : CharSet := extractEntries root []

mutual
/-- All font files reachable under an entry, with their query results. -/
def fontFilesE : FsEntry → List (JStr × QueryRes)
  | FsEntry.file name res => [(name, res)]
  | FsEntry.dir _ es => fontFilesL es
def fontFilesL : List FsEntry → List (JStr × QueryRes)
  | [] => []
  | e :: rest => fontFilesE e ++ fontFilesL rest
end

/-! ### Include files and the aggregation union in `main` -/

/-- Outcome of a JavaScript operation that can throw. -/
inductive JsResult (α : Type) where
  | ok (val : α)
  | thrown

/-- The separator class of `split(/[\s,]+/g)`. -/
def sepWsComma (c : Char) : Bool := jsIsWs c || c = ','

/-- `t.split(/[\s,]+/g).map(s => s.trim()).filter(Boolean)`. -/
def includeTokens (content : JStr) : List JStr :=
  ((chunksOf sepWsComma content).map jsTrim).filter (fun s => !s.isEmpty)

/-- Merging one include file into the union; a failed read is caught and
the file skipped.  Token handling (`if (s.length === 1) union.add(s)`) is
the same single-character filter as in the loader. -/
def addInclude (u : CharSet) (res : JsResult JStr) : CharSet :=
  match res with
  | JsResult.thrown => u
  | JsResult.ok content => (includeTokens content).foldl tokStep u

/-- The aggregation union built by `main`: baseline characters, then the
heuristic candidates, then the include files, then the font-derived
characters. -/
def buildUnion (raw : JStr) (includes : List (JsResult JStr))
    (fontDir : List FsEntry) : CharSet :=
  let existing := parseExistingChars raw
  let union0 := addAll [] existing
  let union1 := addAll union0 buildCandidateSet
  let union2 := includes.foldl addInclude union1
  addAll union2 (extractCharsFromFonts fontDir)

/-! ### Analyzer: `analyze-charset.js` -/

def isCJK (ch : Char) : Bool := 0x4E00 ≤ ch.toNat && ch.toNat ≤ 0x9FFF

/-- The unique basic-CJK characters of a document, in order of appearance. -/
def collectCJK (text : JStr) : CharSet :=
  text.foldl (fun s ch => if isCJK ch then setInsert s ch else s) []

/-- `dist.set(s, (dist.get(s) || 0) + 1)`. -/
def bumpDist (d : List (Int × Nat)) (s : Int) : List (Int × Nat) :=
  match d with
  | [] => [(s, 1)]
  | (k, c) :: rest => if k = s then (k, c + 1) :: rest else (k, c) :: bumpDist rest s

def distStep (api : CncharAPI) (acc : List (Int × Nat) × Nat) (ch : Char) :
    List (Int × Nat) × Nat :=
  match analyzeStrokeOf api ch with
  | none => (acc.1, acc.2 + 1)
  | some s => (bumpDist acc.1 s, acc.2)

/-- The stroke histogram and unknown tally computed by the analyzer's
`main` over a character set. -/
def analyzeDist (api : CncharAPI) (set : CharSet) : List (Int × Nat) × Nat :=
  set.foldl (distStep api) ([], 0)

/-! ### Auxiliary predicates and concrete instances used in the statements -/

/-- The direct stroke query fails: it throws, returns a non-number (or
`NaN`), or returns a non-positive number. -/
def directFail (api : CncharAPI) (ch : Char) : Prop :=
  api.stroke ch = StrokeRes.thrown ∨ api.stroke ch = StrokeRes.invalid ∨
    ∃ n, api.stroke ch = StrokeRes.num n ∧ n ≤ 0

/-- The direct stroke query returns normally but without a usable count. -/
def directSoftFail (api : CncharAPI) (ch : Char) : Prop :=
  api.stroke ch = StrokeRes.invalid ∨ ∃ n, api.stroke ch = StrokeRes.num n ∧ n ≤ 0

/-- The decomposition fallback fails: it throws, returns a non-array, or
returns an empty array. -/
def fallbackFail (api : CncharAPI) (ch : Char) : Prop :=
  api.order ch = OrderRes.thrown ∨ api.order ch = OrderRes.invalid ∨
    api.order ch = OrderRes.arr []

/-- What one scanned font file contributes to the extracted set. -/
def fontContrib (p : JStr × QueryRes) (x : Char) : Prop :=
  isFontExt p.1 = true ∧
    ∃ codes, p.2 = QueryRes.ok codes ∧
      ∃ cp ∈ codes, inBasicCJK cp = true ∧ x = Char.ofNat cp

/-- A stroke capability whose direct query is non-numeric and whose
decomposition returns one two-stroke entry. -/
def apiC3 : CncharAPI :=
  ⟨fun _ => StrokeRes.invalid, fun _ => OrderRes.arr [['丿', '丨']]⟩

/-- A stroke capability for which every query fails. -/
def apiInv : CncharAPI :=
  ⟨fun _ => StrokeRes.invalid, fun _ => OrderRes.invalid⟩

/-- A stroke capability resolving `一` to 1 stroke and `二` to 2 strokes. -/
def apiOne : CncharAPI :=
  ⟨fun c =>
    if c = '一' then StrokeRes.num 1
    else if c = '二' then StrokeRes.num 2
    else StrokeRes.invalid,
   fun _ => OrderRes.invalid⟩

/-- A concrete linear collation (code-point order). -/
def collW : Char → Char → Bool := fun a b => decide (a.toNat ≤ b.toNat)

def c5docS : String := "3画\tA B"

/-- A baseline line whose character list contains the non-CJK single-char
token `A`. -/
def c5doc : JStr := c5docS.data

def c10rawS : String := " x1000 个次常用字大全 rest"

/-- A document with leading whitespace before the text preceding the
header anchor. -/
def c10raw : JStr := c10rawS.data

/-- A character that is neither whitespace nor a digit.  In a rendered
body line no two adjacent characters are both solid, while the header
anchor contains the adjacent solid pair 个/次. -/
def solid (c : Char) : Bool := !(jsIsWs c) && !(isDig c)

/-- Whether a string contains two adjacent solid characters. -/
def hasAdjSolid : JStr → Bool
  | c :: d :: t => (solid c && solid d) || hasAdjSolid (d :: t)
  | _ => false

/-! ### Lemmas: sets -/

theorem contains_iff_mem_cs (s : CharSet) (c : Char) : s.contains c = true ↔ c ∈ s := by
  simp [List.contains, List.elem_iff]

theorem mem_setInsert {s : CharSet} {c x : Char} :
    x ∈ setInsert s c ↔ x = c ∨ x ∈ s := by
  unfold setInsert
  by_cases h : s.contains c
  · rw [if_pos h]
    constructor
    · exact Or.inr
    · rintro (rfl | hx)
      · exact (contains_iff_mem_cs s x).mp h
      · exact hx
  · rw [if_neg h]
    simp only [List.mem_append, List.mem_singleton]
    tauto

theorem setInsert_of_mem {s : CharSet} {c : Char} (h : c ∈ s) : setInsert s c = s := by
  unfold setInsert
  rw [if_pos ((contains_iff_mem_cs s c).mpr h)]

theorem nodup_setInsert {s : CharSet} {c : Char} (h : s.Nodup) :
    (setInsert s c).Nodup := by
  unfold setInsert
  by_cases hc : s.contains c
  · rwa [if_pos hc]
  · rw [if_neg hc]
    have : c ∉ s := fun hm => hc ((contains_iff_mem_cs s c).mpr hm)
    simp [List.nodup_append, h, this]

theorem setInsert_ne_nil (s : CharSet) (c : Char) : setInsert s c ≠ [] := by
  unfold setInsert
  by_cases hc : s.contains c
  · rw [if_pos hc]
    intro h
    rw [h] at hc
    simp [List.contains] at hc
  · rw [if_neg hc]
    simp

theorem mem_addAll {s : CharSet} {l : List Char} {x : Char} :
    x ∈ addAll s l ↔ x ∈ s ∨ x ∈ l := by
  induction l generalizing s with
  | nil => simp [addAll]
  | cons c t ih =>
    show x ∈ addAll (setInsert s c) t ↔ _
    rw [ih, mem_setInsert]
    simp only [List.mem_cons]
    tauto

theorem nodup_addAll {s : CharSet} {l : List Char} (h : s.Nodup) : (addAll s l).Nodup := by
  induction l generalizing s with
  | nil => exact h
  | cons c t ih => exact ih (nodup_setInsert h)

/-! ### Lemmas: the stroke map -/

theorem lookupB_nil (n : Int) : lookupB [] n = [] := rfl

theorem lookupB_cons (k : Int) (s : CharSet) (m : StrokeMap) (n : Int) :
    lookupB ((k, s) :: m) n = if n = k then s else lookupB m n := by
  unfold lookupB
  by_cases h : n = k
  · subst h
    simp [List.lookup]
  · simp [List.lookup, beq_eq_false_iff_ne.mpr h, h]

theorem keysOf_cons (k : Int) (s : CharSet) (m : StrokeMap) :
    keysOf ((k, s) :: m) = k :: keysOf m := rfl

theorem mapInsert_cons (k' : Int) (s' : CharSet) (tl : StrokeMap) (n : Int) (ch : Char) :
    mapInsert ((k', s') :: tl) n ch =
      if k' = n then (k', setInsert s' ch) :: tl else (k', s') :: mapInsert tl n ch := rfl

theorem lookupB_mapInsert (m : StrokeMap) (n : Int) (ch : Char) (k : Int) :
    lookupB (mapInsert m n ch) k =
      if k = n then setInsert (lookupB m n) ch else lookupB m k := by
  induction m with
  | nil =>
    by_cases h : k = n <;>
      simp [mapInsert, lookupB_cons, lookupB_nil, h, setInsert, List.contains]
  | cons hd tl ih =>
    obtain ⟨k', s'⟩ := hd
    rw [mapInsert_cons]
    by_cases h1 : k' = n
    · subst h1
      rw [if_pos rfl]
      simp only [lookupB_cons]
      by_cases h2 : k = k' <;> simp [h2]
    · rw [if_neg h1]
      simp only [lookupB_cons, ih]
      have hnk : ¬ n = k' := fun hh => h1 hh.symm
      rw [if_neg hnk]
      by_cases h2 : k = k'
      · have h3 : ¬ k = n := fun hh => h1 (h2.symm.trans hh)
        rw [if_pos h2, if_neg h3, if_pos h2]
      · rw [if_neg h2]
        by_cases h3 : k = n
        · rw [if_pos h3, if_pos h3]
        · rw [if_neg h3, if_neg h3, if_neg h2]

theorem keysOf_mapInsert (m : StrokeMap) (n : Int) (ch : Char) :
    keysOf (mapInsert m n ch) =
      if n ∈ keysOf m then keysOf m else keysOf m ++ [n] := by
  induction m with
  | nil => simp [mapInsert, keysOf]
  | cons hd tl ih =>
    obtain ⟨k', s'⟩ := hd
    rw [mapInsert_cons]
    by_cases h1 : k' = n
    · subst h1
      rw [if_pos rfl, keysOf_cons, keysOf_cons, if_pos (List.mem_cons_self k' _)]
    · rw [if_neg h1, keysOf_cons, ih, keysOf_cons]
      by_cases h2 : n ∈ keysOf tl
      · rw [if_pos h2, if_pos (List.mem_cons_of_mem _ h2)]
      · have hn : n ∉ k' :: keysOf tl := by
          intro hmem
          rcases List.mem_cons.mp hmem with h | h
          · exact h1 h.symm
          · exact h2 h
        rw [if_neg h2, if_neg hn]
        simp

/-! ### Lemmas: stroke classification -/

theorem extendStrokeOf_num {api : CncharAPI} {ch : Char} {n' : Int}
    (h : api.stroke ch = StrokeRes.num n') :
    extendStrokeOf api ch = if 0 < n' then some n' else extendFallback api ch := by
  unfold extendStrokeOf
  rw [h]

theorem extendStrokeOf_invalid {api : CncharAPI} {ch : Char}
    (h : api.stroke ch = StrokeRes.invalid) :
    extendStrokeOf api ch = extendFallback api ch := by
  unfold extendStrokeOf
  rw [h]

theorem extendStrokeOf_thrown {api : CncharAPI} {ch : Char}
    (h : api.stroke ch = StrokeRes.thrown) : extendStrokeOf api ch = none := by
  unfold extendStrokeOf
  rw [h]

theorem analyzeStrokeOf_num {api : CncharAPI} {ch : Char} {n' : Int}
    (h : api.stroke ch = StrokeRes.num n') :
    analyzeStrokeOf api ch = if 0 < n' then some n' else analyzeFallback api ch := by
  unfold analyzeStrokeOf
  rw [h]

theorem analyzeStrokeOf_invalid {api : CncharAPI} {ch : Char}
    (h : api.stroke ch = StrokeRes.invalid) :
    analyzeStrokeOf api ch = analyzeFallback api ch := by
  unfold analyzeStrokeOf
  rw [h]

theorem analyzeStrokeOf_thrown {api : CncharAPI} {ch : Char}
    (h : api.stroke ch = StrokeRes.thrown) :
    analyzeStrokeOf api ch = analyzeFallback api ch := by
  unfold analyzeStrokeOf
  rw [h]

theorem extendFallback_arr {api : CncharAPI} {ch : Char} {x : JStr} {xs : List JStr}
    (h : api.order ch = OrderRes.arr (x :: xs)) :
    extendFallback api ch = some (x.length : Int) := by
  unfold extendFallback
  rw [h]

theorem analyzeFallback_arr {api : CncharAPI} {ch : Char} {x : JStr} {xs : List JStr}
    (h : api.order ch = OrderRes.arr (x :: xs)) :
    analyzeFallback api ch = some (((x :: xs).length : Nat) : Int) := by
  unfold analyzeFallback
  rw [h]

theorem extendFallback_of_fail {api : CncharAPI} {ch : Char}
    (h : fallbackFail api ch) : extendFallback api ch = none := by
  unfold extendFallback
  rcases h with h | h | h <;> rw [h]

theorem analyzeFallback_of_fail {api : CncharAPI} {ch : Char}
    (h : fallbackFail api ch) : analyzeFallback api ch = none := by
  unfold analyzeFallback
  rcases h with h | h | h <;> rw [h]

theorem gbsStep_none {api : CncharAPI} {ch : Char} (m : StrokeMap)
    (h : extendStrokeOf api ch = none) : gbsStep api m ch = m := by
  unfold gbsStep
  rw [h]

theorem gbsStep_some {api : CncharAPI} {ch : Char} {n : Int} (m : StrokeMap)
    (h : extendStrokeOf api ch = some n) :
    gbsStep api m ch = if n = 0 then m else mapInsert m n ch := by
  unfold gbsStep
  rw [h]

theorem extendFallback_nonneg {api : CncharAPI} {ch : Char} {n : Int}
    (h : extendFallback api ch = some n) : 0 ≤ n := by
  unfold extendFallback at h
  cases ho : api.order ch with
  | arr xs =>
    rw [ho] at h
    cases xs with
    | nil => cases h
    | cons x t =>
      injection h with h'
      rw [← h']
      exact Int.natCast_nonneg _
  | invalid => rw [ho] at h; cases h
  | thrown => rw [ho] at h; cases h

theorem extendStrokeOf_nonneg {api : CncharAPI} {ch : Char} {n : Int}
    (h : extendStrokeOf api ch = some n) : 0 ≤ n := by
  cases hs : api.stroke ch with
  | num n' =>
    rw [extendStrokeOf_num hs] at h
    by_cases hp : 0 < n'
    · rw [if_pos hp] at h
      injection h with h'
      omega
    · rw [if_neg hp] at h
      exact extendFallback_nonneg h
  | invalid => rw [extendStrokeOf_invalid hs] at h; exact extendFallback_nonneg h
  | thrown => rw [extendStrokeOf_thrown hs] at h; cases h

theorem lookupB_gbsStep (api : CncharAPI) (m : StrokeMap) (ch : Char) (k : Int) (x : Char) :
    x ∈ lookupB (gbsStep api m ch) k ↔
      x ∈ lookupB m k ∨ (x = ch ∧ extendStrokeOf api ch = some k ∧ k ≠ 0) := by
  cases hs : extendStrokeOf api ch with
  | none => rw [gbsStep_none m hs]; simp
  | some n =>
    rw [gbsStep_some m hs]
    by_cases hn : n = 0
    · rw [if_pos hn]
      subst hn
      constructor
      · exact Or.inl
      · rintro (h | ⟨_, hk, hne⟩)
        · exact h
        · injection hk with hk'
          exact absurd hk'.symm hne
    · rw [if_neg hn, lookupB_mapInsert]
      by_cases hk : k = n
      · subst hk
        rw [if_pos rfl, mem_setInsert]
        constructor
        · rintro (rfl | h)
          · exact Or.inr ⟨rfl, rfl, hn⟩
          · exact Or.inl h
        · rintro (h | ⟨rfl, _, _⟩)
          · exact Or.inr h
          · exact Or.inl rfl
      · rw [if_neg hk]
        constructor
        · exact Or.inl
        · rintro (h | ⟨rfl, hk', _⟩)
          · exact h
          · injection hk' with hk''
            exact absurd hk''.symm hk

theorem gbs_fold_lookup (api : CncharAPI) (chars : List Char) (m : StrokeMap)
    (k : Int) (x : Char) :
    x ∈ lookupB (chars.foldl (gbsStep api) m) k ↔
      x ∈ lookupB m k ∨ (x ∈ chars ∧ extendStrokeOf api x = some k ∧ k ≠ 0) := by
  induction chars generalizing m with
  | nil => simp
  | cons c t ih =>
    rw [List.foldl_cons, ih, lookupB_gbsStep]
    constructor
    · rintro ((h | ⟨rfl, hs, hk⟩) | ⟨hx, hs, hk⟩)
      · exact Or.inl h
      · exact Or.inr ⟨List.mem_cons_self _ _, hs, hk⟩
      · exact Or.inr ⟨List.mem_cons_of_mem _ hx, hs, hk⟩
    · rintro (h | ⟨hx, hs, hk⟩)
      · exact Or.inl (Or.inl h)
      · rcases List.mem_cons.mp hx with rfl | hx'
        · exact Or.inl (Or.inr ⟨rfl, hs, hk⟩)
        · exact Or.inr ⟨hx', hs, hk⟩

theorem mem_lookupB_gbs (api : CncharAPI) (chars : CharSet) (k : Int) (x : Char) :
    x ∈ lookupB (groupByStroke api chars) k ↔
      x ∈ chars ∧ extendStrokeOf api x = some k ∧ k ≠ 0 := by
  unfold groupByStroke
  rw [gbs_fold_lookup]
  simp [lookupB_nil]

theorem keys_nodup_gbsStep (api : CncharAPI) (m : StrokeMap) (ch : Char)
    (h : (keysOf m).Nodup) : (keysOf (gbsStep api m ch)).Nodup := by
  cases hs : extendStrokeOf api ch with
  | none => rw [gbsStep_none m hs]; exact h
  | some n =>
    rw [gbsStep_some m hs]
    by_cases hn : n = 0
    · rwa [if_pos hn]
    · rw [if_neg hn, keysOf_mapInsert]
      by_cases hm : n ∈ keysOf m
      · rwa [if_pos hm]
      · rw [if_neg hm]
        simp [List.nodup_append, h, hm]

theorem gbs_fold_keys_nodup (api : CncharAPI) (chars : List Char) (m : StrokeMap)
    (h : (keysOf m).Nodup) : (keysOf (chars.foldl (gbsStep api) m)).Nodup := by
  induction chars generalizing m with
  | nil => exact h
  | cons c t ih => exact ih _ (keys_nodup_gbsStep api m c h)

theorem gbs_keys_nodup (api : CncharAPI) (chars : CharSet) :
    (keysOf (groupByStroke api chars)).Nodup := by
  unfold groupByStroke
  exact gbs_fold_keys_nodup api chars [] (by simp [keysOf])

theorem bucket_nodup_gbsStep (api : CncharAPI) (m : StrokeMap) (ch : Char)
    (h : ∀ k, (lookupB m k).Nodup) : ∀ k, (lookupB (gbsStep api m ch) k).Nodup := by
  intro k
  cases hs : extendStrokeOf api ch with
  | none => rw [gbsStep_none m hs]; exact h k
  | some n =>
    rw [gbsStep_some m hs]
    by_cases hn : n = 0
    · rw [if_pos hn]; exact h k
    · rw [if_neg hn, lookupB_mapInsert]
      by_cases hk : k = n
      · rw [if_pos hk]; exact nodup_setInsert (h n)
      · rw [if_neg hk]; exact h k

theorem gbs_fold_bucket_nodup (api : CncharAPI) (chars : List Char) (m : StrokeMap)
    (h : ∀ k, (lookupB m k).Nodup) :
    ∀ k, (lookupB (chars.foldl (gbsStep api) m) k).Nodup := by
  induction chars generalizing m with
  | nil => exact h
  | cons c t ih => exact ih _ (bucket_nodup_gbsStep api m c h)

theorem gbs_bucket_nodup (api : CncharAPI) (chars : CharSet) (k : Int) :
    (lookupB (groupByStroke api chars) k).Nodup := by
  unfold groupByStroke
  exact gbs_fold_bucket_nodup api chars [] (fun k => by simp [lookupB_nil]) k

theorem lookup_eq_some_of_mem {m : StrokeMap} (hnd : (keysOf m).Nodup) {n : Int}
    {b : CharSet} (h : (n, b) ∈ m) : List.lookup n m = some b := by
  induction m with
  | nil => cases h
  | cons hd tl ih =>
    obtain ⟨k, s⟩ := hd
    rcases List.mem_cons.mp h with he | hm
    · injection he with he1 he2
      subst he1; subst he2
      simp [List.lookup]
    · have hk : n ≠ k := by
        intro hkk
        subst hkk
        have : n ∈ keysOf tl := by
          have := List.mem_map_of_mem Prod.fst hm
          simpa [keysOf] using this
        rw [keysOf_cons] at hnd
        exact (List.nodup_cons.mp hnd).1 this
      have := ih (by rw [keysOf_cons] at hnd; exact (List.nodup_cons.mp hnd).2) hm
      simp [List.lookup, beq_eq_false_iff_ne.mpr hk, this]

theorem mem_of_lookup_eq_some {m : StrokeMap} {n : Int} {b : CharSet}
    (h : List.lookup n m = some b) : (n, b) ∈ m := by
  induction m with
  | nil => cases h
  | cons hd tl ih =>
    obtain ⟨k, s⟩ := hd
    by_cases hk : n = k
    · subst hk
      simp [List.lookup] at h
      subst h
      exact List.mem_cons_self _ _
    · simp [List.lookup, beq_eq_false_iff_ne.mpr hk] at h
      exact List.mem_cons_of_mem _ (ih h)

theorem mem_charsOf {m : StrokeMap} {x : Char} :
    x ∈ charsOf m ↔ ∃ p ∈ m, x ∈ p.2 := by
  unfold charsOf
  simp only [List.mem_flatten, List.mem_map]
  constructor
  · rintro ⟨l, ⟨⟨a, b⟩, hm, rfl⟩, hx⟩
    exact ⟨(a, b), hm, hx⟩
  · rintro ⟨⟨a, b⟩, hm, hx⟩
    exact ⟨b, ⟨(a, b), hm, rfl⟩, hx⟩

theorem mem_charsOf_gbs (api : CncharAPI) (chars : CharSet) (x : Char) :
    x ∈ charsOf (groupByStroke api chars) ↔
      x ∈ chars ∧ ∃ n, extendStrokeOf api x = some n ∧ n ≠ 0 := by
  rw [mem_charsOf]
  constructor
  · rintro ⟨⟨k, b⟩, hp, hx⟩
    have hl : List.lookup k (groupByStroke api chars) = some b :=
      lookup_eq_some_of_mem (gbs_keys_nodup api chars) hp
    have hxx : x ∈ lookupB (groupByStroke api chars) k := by
      unfold lookupB
      rw [hl]
      exact hx
    rw [mem_lookupB_gbs] at hxx
    exact ⟨hxx.1, k, hxx.2.1, hxx.2.2⟩
  · rintro ⟨hx, n, hs, hn⟩
    have hxx : x ∈ lookupB (groupByStroke api chars) n :=
      (mem_lookupB_gbs api chars n x).mpr ⟨hx, hs, hn⟩
    unfold lookupB at hxx
    cases hl : List.lookup n (groupByStroke api chars) with
    | none => rw [hl] at hxx; cases hxx
    | some b =>
      rw [hl] at hxx
      exact ⟨(n, b), mem_of_lookup_eq_some hl, hxx⟩

theorem gbs_entry_mem {api : CncharAPI} {chars : CharSet} {n : Int} {b : CharSet}
    {x : Char} (hb : (n, b) ∈ groupByStroke api chars) (hx : x ∈ b) :
    x ∈ chars ∧ extendStrokeOf api x = some n ∧ n ≠ 0 := by
  have hl : List.lookup n (groupByStroke api chars) = some b :=
    lookup_eq_some_of_mem (gbs_keys_nodup api chars) hb
  have : x ∈ lookupB (groupByStroke api chars) n := by
    unfold lookupB
    rw [hl]
    exact hx
  rwa [mem_lookupB_gbs] at this

/-! ### Lemmas: totals, ordering and selection -/

theorem pickBucket_cons (limit : Nat) (picked : CharSet) (c : Char) (l : List Char) :
    pickBucket limit picked (c :: l) =
      if limit ≤ picked.length then picked
      else pickBucket limit (setInsert picked c) l := rfl

theorem pickKeys_cons (collLe : Char → Char → Bool) (limit : Nat) (m : StrokeMap)
    (k : Int) (ks : List Int) (picked : CharSet) :
    pickKeys collLe limit m (k :: ks) picked =
      (if limit ≤ (pickBucket limit picked (sortBucket collLe (lookupB m k))).length
       then pickBucket limit picked (sortBucket collLe (lookupB m k))
       else pickKeys collLe limit m ks
         (pickBucket limit picked (sortBucket collLe (lookupB m k)))) := rfl

theorem foldl_add_len (m : StrokeMap) (l : List Int) (a : Nat) :
    l.foldl (fun acc k => acc + (lookupB m k).length) a
      = a + (l.map (fun k => (lookupB m k).length)).sum := by
  induction l generalizing a with
  | nil => simp
  | cons k t ih =>
    rw [List.foldl_cons, ih, List.map_cons, List.sum_cons]
    omega

theorem map_lookupB_eq_snd (m : StrokeMap) (hnd : (keysOf m).Nodup) :
    (keysOf m).map (lookupB m) = m.map Prod.snd := by
  induction m with
  | nil => rfl
  | cons hd tl ih =>
    obtain ⟨k, s⟩ := hd
    rw [keysOf_cons] at hnd
    rcases List.nodup_cons.mp hnd with ⟨hk, htl⟩
    rw [keysOf_cons, List.map_cons, List.map_cons]
    congr 1
    · rw [lookupB_cons, if_pos rfl]
    · have hsame : ∀ k' ∈ keysOf tl, lookupB ((k, s) :: tl) k' = lookupB tl k' := by
        intro k' hk'
        rw [lookupB_cons, if_neg]
        intro he
        exact hk (he ▸ hk')
      rw [List.map_congr_left hsame]
      exact ih htl

theorem totalCount_eq (m : StrokeMap) (hnd : (keysOf m).Nodup) :
    totalCount m = (charsOf m).length := by
  unfold totalCount
  rw [foldl_add_len]
  rw [Nat.zero_add]
  have hperm : (sortKeysAsc (keysOf m)).Perm (keysOf m) := List.perm_insertionSort _ _
  rw [(hperm.map (fun k => (lookupB m k).length)).sum_eq]
  have h2 : (keysOf m).map (fun k => (lookupB m k).length)
      = ((keysOf m).map (lookupB m)).map List.length := by
    rw [List.map_map]
    rfl
  rw [h2, map_lookupB_eq_snd m hnd]
  unfold charsOf
  rw [List.length_flatten]

theorem sortKeysAsc_perm (l : List Int) : (sortKeysAsc l).Perm l :=
  List.perm_insertionSort _ l

theorem sortKeysAsc_sorted (l : List Int) :
    List.Sorted (fun a b : Int => a ≤ b) (sortKeysAsc l) := by
  haveI : IsTotal Int (fun a b : Int => a ≤ b) := ⟨fun a b => Int.le_total a b⟩
  haveI : IsTrans Int (fun a b : Int => a ≤ b) := ⟨fun _ _ _ => Int.le_trans⟩
  exact List.sorted_insertionSort _ l

theorem sortBucket_perm (collLe : Char → Char → Bool) (b : CharSet) :
    (sortBucket collLe b).Perm b :=
  List.perm_insertionSort _ b

theorem sortBucket_sorted (collLe : Char → Char → Bool) (b : CharSet)
    (htot : ∀ a b, collLe a b = true ∨ collLe b a = true)
    (htrans : ∀ a b c, collLe a b = true → collLe b c = true → collLe a c = true) :
    List.Pairwise (collRel collLe) (sortBucket collLe b) := by
  haveI : IsTotal Char (collRel collLe) := ⟨htot⟩
  haveI : IsTrans Char (collRel collLe) := ⟨htrans⟩
  exact List.sorted_insertionSort _ b

theorem flatten_map_perm (l : List Int) (f g : Int → List Char)
    (h : ∀ x ∈ l, (f x).Perm (g x)) : ((l.map f).flatten).Perm ((l.map g).flatten) := by
  induction l with
  | nil => rfl
  | cons k t ih =>
    rw [List.map_cons, List.map_cons, List.flatten_cons, List.flatten_cons]
    exact (h k (List.mem_cons_self _ _)).append
      (ih fun x hx => h x (List.mem_cons_of_mem _ hx))

theorem selOrder_perm_charsOf (collLe : Char → Char → Bool) (m : StrokeMap)
    (hnd : (keysOf m).Nodup) : (selOrder collLe m).Perm (charsOf m) := by
  unfold selOrder
  have s1 : (((sortKeysAsc (keysOf m)).map
        (fun k => sortBucket collLe (lookupB m k))).flatten).Perm
      (((sortKeysAsc (keysOf m)).map (fun k => lookupB m k)).flatten) :=
    flatten_map_perm _ _ _ (fun x _ => sortBucket_perm collLe _)
  have s2 : (((sortKeysAsc (keysOf m)).map (fun k => lookupB m k)).flatten).Perm
      (((keysOf m).map (fun k => lookupB m k)).flatten) :=
    ((sortKeysAsc_perm (keysOf m)).map _).flatten
  have s3 : ((keysOf m).map (fun k => lookupB m k)).flatten = charsOf m := by
    have h := map_lookupB_eq_snd m hnd
    unfold charsOf
    rw [show ((keysOf m).map fun k => lookupB m k) = (keysOf m).map (lookupB m) from rfl, h]
  rw [← s3]
  exact s1.trans s2

theorem selOrder_nodup (api : CncharAPI) (collLe : Char → Char → Bool) (chars : CharSet) :
    (selOrder collLe (groupByStroke api chars)).Nodup := by
  unfold selOrder
  rw [List.nodup_flatten]
  constructor
  · intro l hl
    rw [List.mem_map] at hl
    obtain ⟨k, _, rfl⟩ := hl
    exact ((sortBucket_perm collLe _).nodup_iff).mpr (gbs_bucket_nodup api chars k)
  · have hknd : (sortKeysAsc (keysOf (groupByStroke api chars))).Nodup :=
      ((sortKeysAsc_perm _).nodup_iff).mpr (gbs_keys_nodup api chars)
    rw [List.pairwise_map]
    refine hknd.imp ?_
    intro a b hne x hxa hxb
    have ha : x ∈ lookupB (groupByStroke api chars) a :=
      (sortBucket_perm collLe _).mem_iff.mp hxa
    have hb : x ∈ lookupB (groupByStroke api chars) b :=
      (sortBucket_perm collLe _).mem_iff.mp hxb
    rw [mem_lookupB_gbs] at ha hb
    exact hne (by rw [ha.2.1] at hb; injection hb.2.1)

theorem gbs_charsOf_nodup (api : CncharAPI) (chars : CharSet) :
    (charsOf (groupByStroke api chars)).Nodup := by
  have h := selOrder_perm_charsOf (fun _ _ => true) (groupByStroke api chars)
    (gbs_keys_nodup api chars)
  exact (h.nodup_iff).mp (selOrder_nodup api (fun _ _ => true) chars)

theorem pickBucket_of_le {limit : Nat} {picked : CharSet}
    (h : limit ≤ picked.length) (l : List Char) : pickBucket limit picked l = picked := by
  cases l with
  | nil => rfl
  | cons c t => rw [pickBucket_cons, if_pos h]

theorem pickBucket_append (limit : Nat) (picked : CharSet) (l₁ l₂ : List Char) :
    pickBucket limit picked (l₁ ++ l₂) =
      pickBucket limit (pickBucket limit picked l₁) l₂ := by
  induction l₁ generalizing picked with
  | nil => rfl
  | cons c t ih =>
    rw [List.cons_append, pickBucket_cons, pickBucket_cons]
    by_cases h : limit ≤ picked.length
    · rw [if_pos h, if_pos h, pickBucket_of_le h]
    · rw [if_neg h, if_neg h, ih]

theorem pickBucket_take {limit : Nat} :
    ∀ (l : List Char) (acc : CharSet), (acc ++ l).Nodup →
      pickBucket limit acc l = acc ++ l.take (limit - acc.length) := by
  intro l
  induction l with
  | nil =>
    intro acc _
    simp [pickBucket]
  | cons c t ih =>
    intro acc h
    rw [pickBucket_cons]
    by_cases hl : limit ≤ acc.length
    · rw [if_pos hl]
      have h0 : limit - acc.length = 0 := by omega
      rw [h0, List.take_zero, List.append_nil]
    · rw [if_neg hl]
      have hc : c ∉ acc := by
        intro hcm
        exact (List.nodup_append.mp h).2.2 hcm (List.mem_cons_self _ _)
      have hins : setInsert acc c = acc ++ [c] := by
        unfold setInsert
        rw [if_neg (fun hcc => hc ((contains_iff_mem_cs acc c).mp hcc))]
      rw [hins]
      have hnd2 : ((acc ++ [c]) ++ t).Nodup := by
        rw [List.append_assoc]
        simpa using h
      rw [ih (acc ++ [c]) hnd2]
      have hlen : (acc ++ [c]).length = acc.length + 1 := by simp
      rw [hlen]
      have harith : limit - acc.length = (limit - (acc.length + 1)) + 1 := by omega
      rw [harith, List.take_succ_cons, List.append_assoc]
      rfl

theorem pickKeys_flatten (collLe : Char → Char → Bool) (limit : Nat) (m : StrokeMap) :
    ∀ (ks : List Int) (acc : CharSet),
      pickKeys collLe limit m ks acc =
        pickBucket limit acc ((ks.map (fun k => sortBucket collLe (lookupB m k))).flatten) := by
  intro ks
  induction ks with
  | nil => intro acc; rfl
  | cons k t ih =>
    intro acc
    rw [pickKeys_cons, List.map_cons, List.flatten_cons, pickBucket_append]
    by_cases h : limit ≤ (pickBucket limit acc (sortBucket collLe (lookupB m k))).length
    · rw [if_pos h, pickBucket_of_le h]
    · rw [if_neg h, ih]

theorem pickAll_eq_take (api : CncharAPI) (collLe : Char → Char → Bool)
    (chars : CharSet) (limit : Nat) :
    pickAll collLe limit (groupByStroke api chars) =
      (selOrder collLe (groupByStroke api chars)).take limit := by
  unfold pickAll
  rw [pickKeys_flatten]
  have hnd : (([] : CharSet) ++ (selOrder collLe (groupByStroke api chars))).Nodup := by
    rw [List.nil_append]
    exact selOrder_nodup api collLe chars
  have := @pickBucket_take limit (selOrder collLe (groupByStroke api chars)) [] hnd
  unfold selOrder at this ⊢
  rw [this, List.nil_append, List.length_nil, Nat.sub_zero]

theorem sorted_flatten_buckets (api : CncharAPI) (collLe : Char → Char → Bool)
    (f : Int → List Char) :
    ∀ ks : List Int, List.Pairwise (fun a b : Int => a < b) ks →
      (∀ k ∈ ks, ∀ x ∈ f k, sKey api x = k) →
      (∀ k ∈ ks, List.Pairwise (collRel collLe) (f k)) →
      List.Pairwise (keyLe api collLe) ((ks.map f).flatten)
  | [], _, _, _ => by simp
  | k :: t, hks, hkey, hsort => by
    rw [List.map_cons, List.flatten_cons, List.pairwise_append]
    rcases List.pairwise_cons.mp hks with ⟨hlt, htail⟩
    refine ⟨?_, ?_, ?_⟩
    · apply List.Pairwise.imp_of_mem ?_ (hsort k (List.mem_cons_self _ _))
      intro a b ha hb hr
      exact Or.inr ⟨(hkey k (List.mem_cons_self _ _) a ha).trans
        (hkey k (List.mem_cons_self _ _) b hb).symm, hr⟩
    · exact sorted_flatten_buckets api collLe f t htail
        (fun k' hk' => hkey k' (List.mem_cons_of_mem _ hk'))
        (fun k' hk' => hsort k' (List.mem_cons_of_mem _ hk'))
    · intro a ha b hb
      rw [List.mem_flatten] at hb
      obtain ⟨l, hl, hbl⟩ := hb
      rw [List.mem_map] at hl
      obtain ⟨k', hk', rfl⟩ := hl
      have hak : sKey api a = k := hkey k (List.mem_cons_self _ _) a ha
      have hbk : sKey api b = k' := hkey k' (List.mem_cons_of_mem _ hk') b hbl
      exact Or.inl (by rw [hak, hbk]; exact hlt k' hk')

theorem selOrder_sorted (api : CncharAPI) (collLe : Char → Char → Bool) (chars : CharSet)
    (htot : ∀ a b, collLe a b = true ∨ collLe b a = true)
    (htrans : ∀ a b c, collLe a b = true → collLe b c = true → collLe a c = true) :
    List.Pairwise (keyLe api collLe) (selOrder collLe (groupByStroke api chars)) := by
  unfold selOrder
  apply sorted_flatten_buckets
  · have hs := sortKeysAsc_sorted (keysOf (groupByStroke api chars))
    have hnd : (sortKeysAsc (keysOf (groupByStroke api chars))).Nodup :=
      ((sortKeysAsc_perm _).nodup_iff).mpr (gbs_keys_nodup api chars)
    exact (List.Pairwise.and hs hnd).imp (fun h => lt_of_le_of_ne h.1 h.2)
  · intro k _ x hx
    have hxm : x ∈ lookupB (groupByStroke api chars) k :=
      (sortBucket_perm collLe _).mem_iff.mp hx
    rw [mem_lookupB_gbs] at hxm
    unfold sKey
    rw [hxm.2.1]
    rfl
  · intro k _
    exact sortBucket_sorted collLe _ htot htrans

/-- C1: for every bucket map (as produced by the stroke classifier) and
every limit smaller than the number of bucketed characters, the selection
output has size exactly `limit` and consists of the first `limit`
characters of the full enumeration ordered by ascending stroke count and,
within a bucket, by the collation — i.e. the `limit` smallest characters
under that lexicographic ordering, stopping possibly mid-bucket and
discarding the rest. -/
theorem claim_C1 (api : CncharAPI) (collLe : Char → Char → Bool) (chars : CharSet)
    (limit : Nat)
    (htot : ∀ a b, collLe a b = true ∨ collLe b a = true)
    (htrans : ∀ a b c, collLe a b = true → collLe b c = true → collLe a c = true)
    (hlt : limit < (charsOf (groupByStroke api chars)).length) :
    (charsOf (runSelection api collLe limit (groupByStroke api chars))).length = limit
    ∧ (∀ x, x ∈ charsOf (runSelection api collLe limit (groupByStroke api chars)) ↔
        x ∈ (selOrder collLe (groupByStroke api chars)).take limit)
    ∧ (selOrder collLe (groupByStroke api chars)).Perm
        (charsOf (groupByStroke api chars))
    ∧ List.Pairwise (keyLe api collLe) (selOrder collLe (groupByStroke api chars)) := by
  have hknd := gbs_keys_nodup api chars
  have htc : totalCount (groupByStroke api chars)
      = (charsOf (groupByStroke api chars)).length :=
    totalCount_eq _ hknd
  have hbranch : limit < totalCount (groupByStroke api chars) := by rw [htc]; exact hlt
  have hrun : runSelection api collLe limit (groupByStroke api chars)
      = groupByStroke api (pickAll collLe limit (groupByStroke api chars)) := by
    unfold runSelection
    rw [if_pos hbranch]
  have hpick := pickAll_eq_take api collLe chars limit
  have hperm := selOrder_perm_charsOf collLe (groupByStroke api chars) hknd
  have hlen : (selOrder collLe (groupByStroke api chars)).length
      = (charsOf (groupByStroke api chars)).length := hperm.length_eq
  have hmemout : ∀ x,
      x ∈ charsOf (runSelection api collLe limit (groupByStroke api chars)) ↔
        x ∈ (selOrder collLe (groupByStroke api chars)).take limit := by
    intro x
    rw [hrun, mem_charsOf_gbs, hpick]
    constructor
    · rintro ⟨hx, _⟩
      exact hx
    · intro hx
      refine ⟨hx, ?_⟩
      have hx2 : x ∈ selOrder collLe (groupByStroke api chars) :=
        (List.take_sublist _ _).subset hx
      have hx3 : x ∈ charsOf (groupByStroke api chars) := hperm.mem_iff.mp hx2
      rw [mem_charsOf_gbs] at hx3
      exact hx3.2
  refine ⟨?_, hmemout, hperm, selOrder_sorted api collLe chars htot htrans⟩
  have hnodup_take : ((selOrder collLe (groupByStroke api chars)).take limit).Nodup :=
    List.Nodup.sublist (List.take_sublist _ _) (selOrder_nodup api collLe chars)
  have hout_nodup :
      (charsOf (runSelection api collLe limit (groupByStroke api chars))).Nodup := by
    rw [hrun]
    exact gbs_charsOf_nodup api _
  have htake_len : ((selOrder collLe (groupByStroke api chars)).take limit).length
      = limit := by
    rw [List.length_take, hlen]
    exact Nat.min_eq_left (by omega)
  have hfin : (charsOf (runSelection api collLe limit (groupByStroke api chars))).toFinset
      = ((selOrder collLe (groupByStroke api chars)).take limit).toFinset := by
    ext y
    simp only [List.mem_toFinset]
    exact hmemout y
  calc (charsOf (runSelection api collLe limit (groupByStroke api chars))).length
      = (charsOf (runSelection api collLe limit (groupByStroke api chars))).toFinset.card :=
        (List.toFinset_card_of_nodup hout_nodup).symm
    _ = ((selOrder collLe (groupByStroke api chars)).take limit).toFinset.card := by
        rw [hfin]
    _ = ((selOrder collLe (groupByStroke api chars)).take limit).length :=
        List.toFinset_card_of_nodup hnodup_take
    _ = limit := htake_len

theorem collW_total (a b : Char) : collW a b = true ∨ collW b a = true := by
  unfold collW
  rcases Nat.le_total a.toNat b.toNat with h | h
  · exact Or.inl (decide_eq_true h)
  · exact Or.inr (decide_eq_true h)

theorem collW_trans (a b c : Char) (h1 : collW a b = true) (h2 : collW b c = true) :
    collW a c = true := by
  unfold collW at h1 h2 ⊢
  exact decide_eq_true (Nat.le_trans (of_decide_eq_true h1) (of_decide_eq_true h2))

/-- Witness for C1 at a concrete two-character classification with limit 1. -/
theorem claim_C1_witness :
    (charsOf (runSelection apiOne collW 1 (groupByStroke apiOne ['二', '一']))).length = 1
    ∧ (∀ x, x ∈ charsOf (runSelection apiOne collW 1 (groupByStroke apiOne ['二', '一'])) ↔
        x ∈ (selOrder collW (groupByStroke apiOne ['二', '一'])).take 1)
    ∧ (selOrder collW (groupByStroke apiOne ['二', '一'])).Perm
        (charsOf (groupByStroke apiOne ['二', '一']))
    ∧ List.Pairwise (keyLe apiOne collW) (selOrder collW (groupByStroke apiOne ['二', '一'])) :=
  claim_C1 apiOne collW ['二', '一'] 1 collW_total collW_trans (by decide)

/-- C2 (amended): for every union set and limit at least the union's size,
the character set of the final bucket map equals the classifiable subset of
the union — every union character with a resolvable non-zero stroke count
is kept, and only the unknown-classification characters are dropped. -/
theorem claim_C2_amended (api : CncharAPI) (collLe : Char → Char → Bool)
    (chars : CharSet) (limit : Nat) (hge : chars.length ≤ limit) :
    ∀ x, x ∈ charsOf (pipelineMap api collLe limit chars) ↔
      x ∈ chars ∧ ∃ n, extendStrokeOf api x = some n ∧ n ≠ 0 := by
  have hknd := gbs_keys_nodup api chars
  have hsub : charsOf (groupByStroke api chars) ⊆ chars := by
    intro x hx
    rw [mem_charsOf_gbs] at hx
    exact hx.1
  have hlen : (charsOf (groupByStroke api chars)).length ≤ chars.length := by
    have h1 := List.toFinset_card_of_nodup (gbs_charsOf_nodup api chars)
    have h2 : (charsOf (groupByStroke api chars)).toFinset ⊆ chars.toFinset := by
      intro y hy
      rw [List.mem_toFinset] at hy ⊢
      exact hsub hy
    calc (charsOf (groupByStroke api chars)).length
        = (charsOf (groupByStroke api chars)).toFinset.card := h1.symm
      _ ≤ chars.toFinset.card := Finset.card_le_card h2
      _ ≤ chars.length := chars.toFinset_card_le
  have hni : ¬ (limit < totalCount (groupByStroke api chars)) := by
    rw [totalCount_eq _ hknd]
    omega
  intro x
  unfold pipelineMap runSelection
  rw [if_neg hni, mem_charsOf_gbs]

/-- Counterexample to C2 as stated: with a one-character union whose stroke
count is unresolvable and limit 1 ≥ |union|, the output drops the
character, so the output character set is not the full union. -/
theorem claim_C2_counterexample :
    (['哼'] : CharSet).length ≤ 1
    ∧ '哼' ∈ (['哼'] : CharSet)
    ∧ '哼' ∉ charsOf (pipelineMap apiInv collW 1 ['哼']) := by
  decide

/-- Witness for the amended C2 at a concrete input. -/
theorem claim_C2_amended_witness :
    '一' ∈ charsOf (pipelineMap apiOne collW 5 ['一']) ↔
      '一' ∈ (['一'] : CharSet) ∧ ∃ n, extendStrokeOf apiOne '一' = some n ∧ n ≠ 0 :=
  claim_C2_amended apiOne collW ['一'] 5 (by decide) '一'

/-- Counterexample to C3 as stated: a character whose direct query is
non-numeric and whose decomposition has one two-stroke entry is classified
as 2 strokes by the pipeline but as 1 stroke by the analyzer. -/
theorem claim_C3_counterexample :
    extendStrokeOf apiC3 '哼' ≠ analyzeStrokeOf apiC3 '哼' := by decide

/-- C3 (amended/corrected): the two classifications agree when the direct
query yields a positive count and when both steps fail, but in the
fallback path the pipeline returns the length of the first decomposition
entry (`order[0].length`) while the analyzer returns the number of entries
(`order.length`); moreover a throwing direct query short-circuits the
pipeline's fallback but not the analyzer's. -/
theorem claim_C3_amended (api : CncharAPI) (ch : Char) :
    (∀ n, api.stroke ch = StrokeRes.num n → 0 < n →
      extendStrokeOf api ch = some n ∧ analyzeStrokeOf api ch = some n)
    ∧ (directFail api ch → fallbackFail api ch →
      extendStrokeOf api ch = none ∧ analyzeStrokeOf api ch = none)
    ∧ (∀ x xs, api.order ch = OrderRes.arr (x :: xs) → directSoftFail api ch →
      extendStrokeOf api ch = some (x.length : Int)
        ∧ analyzeStrokeOf api ch = some ((x :: xs).length : Int))
    ∧ (∀ x xs, api.order ch = OrderRes.arr (x :: xs) →
      api.stroke ch = StrokeRes.thrown →
      extendStrokeOf api ch = none
        ∧ analyzeStrokeOf api ch = some ((x :: xs).length : Int)) := by
  refine ⟨?_, ?_, ?_, ?_⟩
  · intro n hs hp
    rw [extendStrokeOf_num hs, analyzeStrokeOf_num hs, if_pos hp, if_pos hp]
    exact ⟨rfl, rfl⟩
  · intro hd hf
    constructor
    · rcases hd with h | h | ⟨n, h, hn⟩
      · rw [extendStrokeOf_thrown h]
      · rw [extendStrokeOf_invalid h, extendFallback_of_fail hf]
      · rw [extendStrokeOf_num h, if_neg (by omega), extendFallback_of_fail hf]
    · rcases hd with h | h | ⟨n, h, hn⟩
      · rw [analyzeStrokeOf_thrown h, analyzeFallback_of_fail hf]
      · rw [analyzeStrokeOf_invalid h, analyzeFallback_of_fail hf]
      · rw [analyzeStrokeOf_num h, if_neg (by omega), analyzeFallback_of_fail hf]
  · intro x xs ho hd
    have he : extendFallback api ch = some (x.length : Int) := extendFallback_arr ho
    have ha : analyzeFallback api ch = some ((x :: xs).length : Int) :=
      analyzeFallback_arr ho
    rcases hd with h | ⟨n, h, hn⟩
    · rw [extendStrokeOf_invalid h, analyzeStrokeOf_invalid h]
      exact ⟨he, ha⟩
    · rw [extendStrokeOf_num h, analyzeStrokeOf_num h, if_neg (by omega),
        if_neg (by omega)]
      exact ⟨he, ha⟩
  · intro x xs ho ht
    rw [extendStrokeOf_thrown ht, analyzeStrokeOf_thrown ht, analyzeFallback_arr ho]
    exact ⟨rfl, rfl⟩

/-- Witness for the amended C3: the concrete divergence in the fallback
path. -/
theorem claim_C3_amended_witness :
    extendStrokeOf apiC3 '哼' = some (2 : Int)
    ∧ analyzeStrokeOf apiC3 '哼' = some (1 : Int) := by
  have h := (claim_C3_amended apiC3 '哼').2.2.1 ['丿', '丨'] [] rfl (Or.inl rfl)
  simpa using h

theorem distStep_none {api : CncharAPI} {ch : Char} (acc : List (Int × Nat) × Nat)
    (h : analyzeStrokeOf api ch = none) : distStep api acc ch = (acc.1, acc.2 + 1) := by
  unfold distStep
  rw [h]

theorem distStep_some {api : CncharAPI} {ch : Char} {s : Int}
    (acc : List (Int × Nat) × Nat) (h : analyzeStrokeOf api ch = some s) :
    distStep api acc ch = (bumpDist acc.1 s, acc.2) := by
  unfold distStep
  rw [h]

theorem distFold_unknown (api : CncharAPI) (l : List Char) :
    ∀ acc, (l.foldl (distStep api) acc).2 =
      acc.2 + (l.filter (fun c => (analyzeStrokeOf api c).isNone)).length := by
  induction l with
  | nil => intro acc; simp
  | cons c t ih =>
    intro acc
    rw [List.foldl_cons, ih]
    cases hs : analyzeStrokeOf api c with
    | none =>
      rw [distStep_none acc hs]
      simp only [List.filter_cons, hs, Option.isNone_none, if_true, List.length_cons]
      show acc.2 + 1 + _ = _
      omega
    | some s =>
      rw [distStep_some acc hs]
      simp [List.filter_cons, hs]

theorem analyzeDist_unknown (api : CncharAPI) (set : CharSet) :
    (analyzeDist api set).2 =
      (set.filter (fun c => (analyzeStrokeOf api c).isNone)).length := by
  unfold analyzeDist
  rw [distFold_unknown]
  omega

/-- C4: a character for which both the direct stroke query and the
decomposition fallback fail is classified as unknown by both scripts, is
excluded from every bucket of the classifier's map, and is counted by the
analyzer's separately-reported unknown tally, which equals the number of
unresolvable characters of the analyzed set. -/
theorem claim_C4 (api : CncharAPI) (ch : Char) (chars set : CharSet)
    (hd : directFail api ch) (hf : fallbackFail api ch) :
    extendStrokeOf api ch = none
    ∧ analyzeStrokeOf api ch = none
    ∧ (∀ p ∈ groupByStroke api chars, ch ∉ p.2)
    ∧ (analyzeDist api set).2
        = (set.filter (fun c => (analyzeStrokeOf api c).isNone)).length
    ∧ (ch ∈ set → ch ∈ set.filter (fun c => (analyzeStrokeOf api c).isNone)) := by
  have he : extendStrokeOf api ch = none := by
    rcases hd with h | h | ⟨n, h, hn⟩
    · rw [extendStrokeOf_thrown h]
    · rw [extendStrokeOf_invalid h, extendFallback_of_fail hf]
    · rw [extendStrokeOf_num h, if_neg (by omega), extendFallback_of_fail hf]
  have ha : analyzeStrokeOf api ch = none := by
    rcases hd with h | h | ⟨n, h, hn⟩
    · rw [analyzeStrokeOf_thrown h, analyzeFallback_of_fail hf]
    · rw [analyzeStrokeOf_invalid h, analyzeFallback_of_fail hf]
    · rw [analyzeStrokeOf_num h, if_neg (by omega), analyzeFallback_of_fail hf]
  refine ⟨he, ha, ?_, analyzeDist_unknown api set, ?_⟩
  · rintro ⟨k, b⟩ hp hmem
    have hchar := gbs_entry_mem hp hmem
    rw [he] at hchar
    exact Option.noConfusion hchar.2.1
  · intro hs
    rw [List.mem_filter]
    exact ⟨hs, by rw [ha]; rfl⟩

/-- Witness for C4 at a concrete failing capability. -/
theorem claim_C4_witness :
    extendStrokeOf apiInv '哼' = none
    ∧ analyzeStrokeOf apiInv '哼' = none
    ∧ (∀ p ∈ groupByStroke apiInv ['哼'], '哼' ∉ p.2)
    ∧ (analyzeDist apiInv ['哼']).2
        = ((['哼'] : CharSet).filter (fun c => (analyzeStrokeOf apiInv c).isNone)).length
    ∧ ('哼' ∈ (['哼'] : CharSet) →
        '哼' ∈ (['哼'] : CharSet).filter (fun c => (analyzeStrokeOf apiInv c).isNone)) :=
  claim_C4 apiInv '哼' ['哼'] ['哼'] (Or.inr (Or.inl rfl)) (Or.inr (Or.inl rfl))

/-- C5 (code bug): `parseExistingChars` keeps the non-CJK single-character
token `A` from a matching line, although its own comment and the data
model restrict characters to the basic CJK block — the range check is
missing. -/
theorem claim_C5_bug : 'A' ∈ parseExistingChars c5doc ∧ isCJK 'A' = false := by
  decide

theorem mem_tokFold {l : List JStr} {u : CharSet} {x : Char} (h : x ∈ u) :
    x ∈ l.foldl tokStep u := by
  induction l generalizing u with
  | nil => exact h
  | cons t ts ih =>
    apply ih
    rcases t with _ | ⟨c, _ | ⟨d, r⟩⟩
    · exact h
    · exact mem_setInsert.mpr (Or.inr h)
    · exact h

theorem mem_addInclude {u : CharSet} {x : Char} (r : JsResult JStr) (h : x ∈ u) :
    x ∈ addInclude u r := by
  cases r with
  | thrown => exact h
  | ok content => exact mem_tokFold h

theorem mem_includes_fold {includes : List (JsResult JStr)} {u : CharSet} {x : Char}
    (h : x ∈ u) : x ∈ includes.foldl addInclude u := by
  induction includes generalizing u with
  | nil => exact h
  | cons r rs ih => exact ih (mem_addInclude r h)

/-- C7: the aggregation union is idempotent (re-adding a member is a
no-op), commutative/order-independent (membership after adding a list is
invariant under permutation), and deduplicating: supplying a baseline
character again through an extra include file leaves the built union — and
hence its cardinality — unchanged. -/
theorem claim_C7 (s : CharSet) (c : Char) (l₁ l₂ : List Char) (x : Char)
    (raw : JStr) (includes : List (JsResult JStr)) (fontDir : List FsEntry)
    (hc : c ∈ s) (hperm : l₁.Perm l₂) (hbase : c ∈ parseExistingChars raw) :
    setInsert s c = s
    ∧ (x ∈ addAll s l₁ ↔ x ∈ addAll s l₂)
    ∧ buildUnion raw (includes ++ [JsResult.ok [c]]) fontDir
        = buildUnion raw includes fontDir
    ∧ (buildUnion raw (includes ++ [JsResult.ok [c]]) fontDir).length
        = (buildUnion raw includes fontDir).length := by
  have h1 := setInsert_of_mem hc
  have h2 : x ∈ addAll s l₁ ↔ x ∈ addAll s l₂ := by
    rw [mem_addAll, mem_addAll, hperm.mem_iff]
  have hexp : ∀ incs : List (JsResult JStr), buildUnion raw incs fontDir =
      addAll (incs.foldl addInclude
        (addAll (addAll [] (parseExistingChars raw)) buildCandidateSet))
        (extractCharsFromFonts fontDir) := by
    intro incs
    simp only [buildUnion]
  have key : ∀ u : CharSet, c ∈ u → addInclude u (JsResult.ok [c]) = u := by
    intro u hcu
    by_cases hsep : sepWsComma c = true
    · have htk : includeTokens [c] = [] := by
        unfold includeTokens
        simp [chunksOf, hsep]
      show (includeTokens [c]).foldl tokStep u = u
      rw [htk, List.foldl_nil]
    · have hsep' : sepWsComma c = false := by simpa using hsep
      rcases Bool.or_eq_false_iff.mp (by unfold sepWsComma at hsep'; exact hsep')
        with ⟨hw, _⟩
      have htk : includeTokens [c] = [[c]] := by
        unfold includeTokens
        have h4 : chunksOf sepWsComma [c] = [[c]] := by simp [chunksOf, hsep']
        rw [h4]
        have h5 : jsTrim [c] = [c] := by
          unfold jsTrim jsTrimLeft jsTrimRight
          simp [List.dropWhile, hw]
        simp [h5]
      show (includeTokens [c]).foldl tokStep u = u
      rw [htk]
      show tokStep u [c] = u
      unfold tokStep
      exact setInsert_of_mem hcu
  have h3 : buildUnion raw (includes ++ [JsResult.ok [c]]) fontDir
      = buildUnion raw includes fontDir := by
    rw [hexp, hexp, List.foldl_append, List.foldl_cons, List.foldl_nil]
    have hc0 : c ∈ addAll [] (parseExistingChars raw) :=
      mem_addAll.mpr (Or.inr hbase)
    have hc1 : c ∈ addAll (addAll [] (parseExistingChars raw)) buildCandidateSet :=
      mem_addAll.mpr (Or.inl hc0)
    rw [key _ (mem_includes_fold hc1)]
  exact ⟨h1, h2, h3, by rw [h3]⟩

/-- Witness for C7: re-supplying the baseline character `A` of the sample
document via an include file. -/
theorem claim_C7_witness :
    setInsert ['A'] 'A' = ['A']
    ∧ ('一' ∈ addAll ['A'] ['一', '二'] ↔ '一' ∈ addAll ['A'] ['二', '一'])
    ∧ buildUnion c5doc ([] ++ [JsResult.ok ['A']]) []
        = buildUnion c5doc [] []
    ∧ (buildUnion c5doc ([] ++ [JsResult.ok ['A']]) []).length
        = (buildUnion c5doc [] []).length :=
  claim_C7 ['A'] 'A' ['一', '二'] ['二', '一'] '一' c5doc [] []
    (by decide) (List.Perm.swap '二' '一' []) (by decide)

theorem mem_codeFold {codes : List Nat} {s : CharSet} {x : Char} :
    x ∈ codes.foldl codeStep s ↔
      x ∈ s ∨ ∃ cp ∈ codes, inBasicCJK cp = true ∧ x = Char.ofNat cp := by
  induction codes generalizing s with
  | nil => simp
  | cons cp t ih =>
    rw [List.foldl_cons, ih]
    unfold codeStep
    by_cases h : inBasicCJK cp = true
    · rw [if_pos h]
      constructor
      · rintro (hx | ⟨cp', hcp', hin, rfl⟩)
        · rcases mem_setInsert.mp hx with rfl | hxs
          · exact Or.inr ⟨cp, List.mem_cons_self _ _, h, rfl⟩
          · exact Or.inl hxs
        · exact Or.inr ⟨cp', List.mem_cons_of_mem _ hcp', hin, rfl⟩
      · rintro (hxs | ⟨cp', hcp', hin, rfl⟩)
        · exact Or.inl (mem_setInsert.mpr (Or.inr hxs))
        · rcases List.mem_cons.mp hcp' with rfl | hcp''
          · exact Or.inl (mem_setInsert.mpr (Or.inl rfl))
          · exact Or.inr ⟨cp', hcp'', hin, rfl⟩
    · rw [if_neg h]
      constructor
      · rintro (hxs | ⟨cp', hcp', hin, rfl⟩)
        · exact Or.inl hxs
        · exact Or.inr ⟨cp', List.mem_cons_of_mem _ hcp', hin, rfl⟩
      · rintro (hxs | ⟨cp', hcp', hin, rfl⟩)
        · exact Or.inl hxs
        · rcases List.mem_cons.mp hcp' with rfl | hcp''
          · exact absurd hin h
          · exact Or.inr ⟨cp', hcp'', hin, rfl⟩

theorem mem_processFontFile {name : JStr} {res : QueryRes} {s : CharSet} {x : Char} :
    x ∈ processFontFile name res s ↔ x ∈ s ∨ fontContrib (name, res) x := by
  unfold processFontFile fontContrib
  by_cases he : isFontExt name = true
  · rw [if_pos he]
    cases res with
    | ok codes =>
      rw [mem_codeFold]
      constructor
      · rintro (h | ⟨cp, hm, hin, rfl⟩)
        · exact Or.inl h
        · exact Or.inr ⟨he, codes, rfl, cp, hm, hin, rfl⟩
      · rintro (h | ⟨_, codes', heq, cp, hm, hin, rfl⟩)
        · exact Or.inl h
        · injection heq with heq'
          subst heq'
          exact Or.inr ⟨cp, hm, hin, rfl⟩
    | thrown =>
      constructor
      · exact Or.inl
      · rintro (h | ⟨_, codes', heq, _⟩)
        · exact h
        · cases heq
  · rw [if_neg he]
    constructor
    · exact Or.inl
    · rintro (h | ⟨hee, _⟩)
      · exact h
      · exact absurd hee he

mutual
theorem mem_extractEntry (e : FsEntry) (acc : CharSet) (x : Char) :
    x ∈ extractEntry e acc ↔ x ∈ acc ∨ ∃ p ∈ fontFilesE e, fontContrib p x := by
  match e with
  | FsEntry.file name res =>
    show x ∈ processFontFile name res acc ↔ _
    rw [mem_processFontFile]
    simp [fontFilesE]
  | FsEntry.dir name es =>
    show x ∈ extractEntries es acc ↔ _
    rw [mem_extractEntries es acc x]
    rfl
theorem mem_extractEntries (l : List FsEntry) (acc : CharSet) (x : Char) :
    x ∈ extractEntries l acc ↔ x ∈ acc ∨ ∃ p ∈ fontFilesL l, fontContrib p x := by
  match l with
  | [] => simp [extractEntries, fontFilesL]
  | e :: rest =>
    show x ∈ extractEntries rest (extractEntry e acc) ↔ _
    rw [mem_extractEntries rest _ x, mem_extractEntry e acc x]
    show _ ↔ x ∈ acc ∨ ∃ p ∈ fontFilesE e ++ fontFilesL rest, fontContrib p x
    constructor
    · rintro ((h | ⟨p, hp, hc⟩) | ⟨p, hp, hc⟩)
      · exact Or.inl h
      · exact Or.inr ⟨p, List.mem_append.mpr (Or.inl hp), hc⟩
      · exact Or.inr ⟨p, List.mem_append.mpr (Or.inr hp), hc⟩
    · rintro (h | ⟨p, hp, hc⟩)
      · exact Or.inl (Or.inl h)
      · rcases List.mem_append.mp hp with h' | h'
        · exact Or.inl (Or.inr ⟨p, h', hc⟩)
        · exact Or.inr ⟨p, h', hc⟩
end

/-- C9: a character is extracted from the font scan exactly when some
scanned `.ttf`/`.otf` file's coverage query succeeded and covers a basic-
CJK code point mapping to it — so a font whose open/query throws
contributes nothing while every other font still contributes, and the scan
always completes with a result set.  In particular prepending a throwing
font file leaves the extracted set unchanged. -/
theorem claim_C9 (root : List FsEntry) (x : Char) :
    (x ∈ extractCharsFromFonts root ↔ ∃ p ∈ fontFilesL root, fontContrib p x)
    ∧ (∀ name, x ∈ extractCharsFromFonts (FsEntry.file name QueryRes.thrown :: root)
        ↔ x ∈ extractCharsFromFonts root) := by
  have h1 : ∀ l : List FsEntry,
      (x ∈ extractCharsFromFonts l ↔ ∃ p ∈ fontFilesL l, fontContrib p x) := by
    intro l
    unfold extractCharsFromFonts
    rw [mem_extractEntries]
    simp
  refine ⟨h1 root, ?_⟩
  intro name
  rw [h1 root, h1 (FsEntry.file name QueryRes.thrown :: root)]
  constructor
  · rintro ⟨p, hp, hc⟩
    have hp' : p ∈ fontFilesE (FsEntry.file name QueryRes.thrown) ++ fontFilesL root := hp
    rcases List.mem_append.mp hp' with h' | h'
    · have : p = (name, QueryRes.thrown) := by
        simpa [fontFilesE] using h'
      subst this
      obtain ⟨_, codes, heq, _⟩ := hc
      cases heq
    · exact ⟨p, h', hc⟩
  · rintro ⟨p, hp, hc⟩
    exact ⟨p, List.mem_append.mpr (Or.inr hp), hc⟩

theorem pickAll_zero (collLe : Char → Char → Bool) (m : StrokeMap) :
    pickAll collLe 0 m = [] := by
  unfold pickAll
  cases hk : sortKeysAsc (keysOf m) with
  | nil => rfl
  | cons k ks =>
    rw [pickKeys_cons, pickBucket_of_le (Nat.zero_le _), if_pos (Nat.zero_le _)]

theorem runSelection_zero (api : CncharAPI) (collLe : Char → Char → Bool)
    (m : StrokeMap) (h : 0 < totalCount m) : runSelection api collLe 0 m = [] := by
  unfold runSelection
  rw [if_pos h, pickAll_zero]
  rfl

theorem head?_dropWhile_not {p : Char → Bool} :
    ∀ (l : JStr) {c : Char}, (l.dropWhile p).head? = some c → p c = false := by
  intro l
  induction l with
  | nil => intro c h; cases h
  | cons a t ih =>
    intro c h
    rw [List.dropWhile_cons] at h
    by_cases hp : p a = true
    · rw [if_pos hp] at h
      exact ih h
    · rw [if_neg hp] at h
      injection h with h1
      subst h1
      simpa using hp

theorem jsTrimLeft_suffix (l : JStr) : jsTrimLeft l <:+ l := List.dropWhile_suffix _

theorem jsTrimRight_prefix_self (l : JStr) : jsTrimRight l <+: l := by
  unfold jsTrimRight
  obtain ⟨u, hu⟩ := List.dropWhile_suffix (l := l.reverse) (p := jsIsWs)
  exact ⟨u.reverse, by rw [← List.reverse_append, hu, List.reverse_reverse]⟩

theorem jsTrim_infix_self (l : JStr) : jsTrim l <:+: l :=
  List.infix_iff_prefix_suffix.mpr ⟨jsTrimLeft l, jsTrimRight_prefix_self _, jsTrimLeft_suffix l⟩

theorem jsTrimLeft_head {l : JStr} {c : Char} (h : (jsTrimLeft l).head? = some c) :
    jsIsWs c = false := head?_dropWhile_not l h

theorem jsTrimRight_last {l : JStr} {c : Char} (h : (jsTrimRight l).getLast? = some c) :
    jsIsWs c = false := by
  unfold jsTrimRight at h
  rw [List.getLast?_reverse] at h
  exact head?_dropWhile_not _ h

theorem jsTrim_head {l : JStr} {c : Char} (h : (jsTrim l).head? = some c) :
    jsIsWs c = false := by
  unfold jsTrim at h
  obtain ⟨t, ht⟩ := jsTrimRight_prefix_self (jsTrimLeft l)
  apply jsTrimLeft_head (l := l)
  rw [← ht]
  cases hx : jsTrimRight (jsTrimLeft l) with
  | nil => rw [hx] at h; cases h
  | cons a t' =>
    rw [hx] at h
    injection h with h1
    subst h1
    rfl

theorem jsTrim_last {l : JStr} {c : Char} (h : (jsTrim l).getLast? = some c) :
    jsIsWs c = false := jsTrimRight_last h

theorem jsTrimRight_append (X Y : JStr)
    (hl : ∀ c, X.getLast? = some c → jsIsWs c = false) :
    jsTrimRight (X ++ Y) = X ++ jsTrimRight Y := by
  unfold jsTrimRight
  rw [List.reverse_append, List.dropWhile_append]
  by_cases he : (Y.reverse.dropWhile jsIsWs).isEmpty = true
  · rw [if_pos he]
    have hy : Y.reverse.dropWhile jsIsWs = [] := List.isEmpty_iff.mp he
    rw [hy, List.reverse_nil, List.append_nil]
    cases hX : X.reverse with
    | nil =>
      have hXn : X = [] := by simpa using congrArg List.reverse hX
      rw [hXn]
      rfl
    | cons a t =>
      have ha : X.getLast? = some a := by
        rw [← List.head?_reverse, hX]
        rfl
      rw [List.dropWhile_cons, if_neg (by rw [hl a ha]; simp)]
      rw [← hX, List.reverse_reverse]
  · rw [if_neg he, List.reverse_append, List.reverse_reverse]

theorem prefix_of_jsTrim_append {P rest : JStr}
    (hh : ∀ c, P.head? = some c → jsIsWs c = false)
    (hl : ∀ c, P.getLast? = some c → jsIsWs c = false) :
    P <+: jsTrim (P ++ rest) := by
  rcases P with _ | ⟨a, P'⟩
  · exact List.nil_prefix
  · have ha : jsIsWs a = false := hh a rfl
    have h1 : jsTrimLeft ((a :: P') ++ rest) = (a :: P') ++ rest := by
      unfold jsTrimLeft
      rw [List.cons_append, List.dropWhile_cons, if_neg (by rw [ha]; simp)]
    unfold jsTrim
    rw [h1, jsTrimRight_append (a :: P') rest hl]
    exact List.prefix_append _ _

theorem getLast?_append_right {l₁ l₂ : JStr} (h : l₂ ≠ []) :
    (l₁ ++ l₂).getLast? = l₂.getLast? := by
  rw [← List.head?_reverse, ← List.head?_reverse, List.reverse_append]
  cases hr : l₂.reverse with
  | nil => exact absurd (by simpa using congrArg List.reverse hr) h
  | cons a t => rfl

theorem suffix_of_jsTrim_append (Q X : JStr)
    (hh : ∀ c, Q.head? = some c → jsIsWs c = false)
    (hl : ∀ c, Q.getLast? = some c → jsIsWs c = false)
    (hne : Q ≠ []) : Q <:+ jsTrim (X ++ Q) := by
  have hQtrim : ∀ Z : JStr, jsTrimRight (Z ++ Q) = Z ++ Q := by
    intro Z
    have h2 : ∀ c, (Z ++ Q).getLast? = some c → jsIsWs c = false := by
      intro c hc
      rw [getLast?_append_right hne] at hc
      exact hl c hc
    have h3 := jsTrimRight_append (Z ++ Q) [] h2
    have h4 : jsTrimRight ([] : JStr) = [] := rfl
    rw [List.append_nil, h4, List.append_nil] at h3
    exact h3
  unfold jsTrim jsTrimLeft
  rw [List.dropWhile_append]
  by_cases he : (X.dropWhile jsIsWs).isEmpty = true
  · rw [if_pos he]
    obtain ⟨a, Q', rfl⟩ : ∃ a Q', Q = a :: Q' := by
      cases Q with
      | nil => exact absurd rfl hne
      | cons a Q' => exact ⟨a, Q', rfl⟩
    rw [List.dropWhile_cons, if_neg (by rw [hh a rfl]; simp)]
    have h4 := hQtrim []
    rw [List.nil_append] at h4
    rw [h4]
  · rw [if_neg he]
    rw [hQtrim (X.dropWhile jsIsWs)]
    exact List.suffix_append _ _

theorem prefixRegion_head {raw : JStr} {c : Char}
    (h : (prefixRegion raw).head? = some c) : jsIsWs c = false := by
  unfold prefixRegion at h
  cases ho : firstOcc raw anchorHeader with
  | none => rw [ho] at h; cases h
  | some i => rw [ho] at h; exact jsTrim_head h

theorem prefixRegion_last {raw : JStr} {c : Char}
    (h : (prefixRegion raw).getLast? = some c) : jsIsWs c = false := by
  unfold prefixRegion at h
  cases ho : firstOcc raw anchorHeader with
  | none => rw [ho] at h; cases h
  | some i => rw [ho] at h; exact jsTrim_last h

theorem suffixRegion_head {raw : JStr} {c : Char}
    (h : (suffixRegion raw).head? = some c) : jsIsWs c = false := by
  unfold suffixRegion at h
  cases ho : firstOcc raw anchorDigits with
  | none => rw [ho] at h; cases h
  | some i => rw [ho] at h; exact jsTrim_head h

theorem suffixRegion_last {raw : JStr} {c : Char}
    (h : (suffixRegion raw).getLast? = some c) : jsIsWs c = false := by
  unfold suffixRegion at h
  cases ho : firstOcc raw anchorDigits with
  | none => rw [ho] at h; cases h
  | some i => rw [ho] at h; exact jsTrim_last h

/-- C8: with limit 0 and a non-empty classified map, the truncation step
empties the map, the formatted document's body region is empty (only the
region separators remain between prefix and suffix), and a non-empty
prefix region still opens the document while a non-empty suffix region
still closes it before the final newline. -/
theorem claim_C8 (api : CncharAPI) (collLe : Char → Char → Bool) (chars : CharSet)
    (raw : JStr) (h : 0 < totalCount (groupByStroke api chars)) :
    runSelection api collLe 0 (groupByStroke api chars) = []
    ∧ formatOutput collLe (runSelection api collLe 0 (groupByStroke api chars)) raw
        = jsTrim (prefixRegion raw ++
            '\n' :: '\n' :: '\n' :: '\n' :: suffixRegion raw) ++ ['\n']
    ∧ (prefixRegion raw ≠ [] →
        prefixRegion raw <+:
          formatOutput collLe (runSelection api collLe 0 (groupByStroke api chars)) raw)
    ∧ (suffixRegion raw ≠ [] →
        suffixRegion raw ++ ['\n'] <:+
          formatOutput collLe (runSelection api collLe 0 (groupByStroke api chars)) raw) := by
  have h0 := runSelection_zero api collLe _ h
  rw [h0]
  have hfmt : formatOutput collLe ([] : StrokeMap) raw
      = jsTrim (prefixRegion raw ++
          '\n' :: '\n' :: '\n' :: '\n' :: suffixRegion raw) ++ ['\n'] := by
    unfold formatOutput
    have hbody : bodyOf collLe ([] : StrokeMap) = [] := rfl
    rw [hbody]
    simp
  refine ⟨rfl, hfmt, ?_, ?_⟩
  · intro _
    rw [hfmt]
    have hpre : prefixRegion raw <+:
        jsTrim (prefixRegion raw ++ '\n' :: '\n' :: '\n' :: '\n' :: suffixRegion raw) :=
      prefix_of_jsTrim_append (fun c hc => prefixRegion_head hc)
        (fun c hc => prefixRegion_last hc)
    exact hpre.trans (List.prefix_append _ _)
  · intro hne
    rw [hfmt]
    have hsuf : suffixRegion raw <:+
        jsTrim ((prefixRegion raw ++ ['\n', '\n', '\n', '\n']) ++ suffixRegion raw) :=
      suffix_of_jsTrim_append (suffixRegion raw)
        (prefixRegion raw ++ ['\n', '\n', '\n', '\n'])
        (fun c hc => suffixRegion_head hc) (fun c hc => suffixRegion_last hc) hne
    have hassoc : (prefixRegion raw ++ ['\n', '\n', '\n', '\n']) ++ suffixRegion raw
        = prefixRegion raw ++ '\n' :: '\n' :: '\n' :: '\n' :: suffixRegion raw := by
      rw [List.append_assoc]
      rfl
    rw [hassoc] at hsuf
    obtain ⟨u, hu⟩ := hsuf
    exact ⟨u, by rw [← List.append_assoc, hu]⟩

/-- Witness for C8 at a concrete classified set and the empty document. -/
theorem claim_C8_witness :
    runSelection apiOne collW 0 (groupByStroke apiOne ['一']) = []
    ∧ formatOutput collW (runSelection apiOne collW 0 (groupByStroke apiOne ['一'])) []
        = jsTrim (prefixRegion [] ++
            '\n' :: '\n' :: '\n' :: '\n' :: suffixRegion []) ++ ['\n']
    ∧ (prefixRegion [] ≠ [] →
        prefixRegion [] <+:
          formatOutput collW (runSelection apiOne collW 0 (groupByStroke apiOne ['一'])) [])
    ∧ (suffixRegion [] ≠ [] →
        suffixRegion [] ++ ['\n'] <:+
          formatOutput collW (runSelection apiOne collW 0 (groupByStroke apiOne ['一'])) []) :=
  claim_C8 apiOne collW ['一'] [] (by decide)

/-! ### Lemmas: line splitting and the line pattern -/

theorem splitOnChar_cons (sep c : Char) (t : JStr) :
    splitOnChar sep (c :: t) =
      if c = sep then [] :: splitOnChar sep t
      else
        match splitOnChar sep t with
        | s :: ss => (c :: s) :: ss
        | [] => [[c]] := rfl

theorem splitOnChar_ne_nil (sep : Char) : ∀ l : JStr, splitOnChar sep l ≠ []
  | [] => by simp [splitOnChar]
  | c :: t => by
    rw [splitOnChar_cons]
    by_cases h : c = sep
    · rw [if_pos h]; simp
    · rw [if_neg h]
      cases hs : splitOnChar sep t with
      | nil => simp
      | cons s ss => simp

theorem splitOnChar_append_sep (sep : Char) :
    ∀ (a b : JStr), splitOnChar sep (a ++ sep :: b) = splitOnChar sep a ++ splitOnChar sep b
  | [], b => by
    rw [List.nil_append, splitOnChar_cons, if_pos rfl]
    rfl
  | c :: t, b => by
    rw [List.cons_append, splitOnChar_cons, splitOnChar_cons]
    by_cases h : c = sep
    · rw [if_pos h, if_pos h, splitOnChar_append_sep sep t b]
      rfl
    · rw [if_neg h, if_neg h, splitOnChar_append_sep sep t b]
      cases hs : splitOnChar sep t with
      | nil => exact absurd hs (splitOnChar_ne_nil sep t)
      | cons s ss => rfl

theorem splitOnChar_no_sep {sep : Char} : ∀ {a : JStr}, sep ∉ a → splitOnChar sep a = [a]
  | [], _ => rfl
  | c :: t, h => by
    rw [splitOnChar_cons, if_neg (fun hc => h (by rw [← hc]; exact List.mem_cons_self c t))]
    rw [splitOnChar_no_sep (fun hm => h (List.mem_cons_of_mem c hm))]

theorem mapButLast_cons₂ (f : JStr → JStr) (x y : JStr) (t : List JStr) :
    mapButLast f (x :: y :: t) = f x :: mapButLast f (y :: t) := rfl

theorem mem_mapButLast_of_fix {f : JStr → JStr} {v : JStr} (hf : f v = v) :
    ∀ (xs ys : List JStr), ys ≠ [] → v ∈ mapButLast f (xs ++ v :: ys)
  | [], ys, hys => by
    cases ys with
    | nil => exact absurd rfl hys
    | cons y ys' =>
      rw [List.nil_append, mapButLast_cons₂, hf]
      exact List.mem_cons_self _ _
  | x :: xs, ys, hys => by
    have hrest : xs ++ v :: ys ≠ [] := by simp
    cases hx : xs ++ v :: ys with
    | nil => exact absurd hx hrest
    | cons r rt =>
      rw [List.cons_append, hx, mapButLast_cons₂, ← hx]
      exact List.mem_cons_of_mem _ (mem_mapButLast_of_fix hf xs ys hys)

theorem mem_splitLines_of_decomp {A line B : JStr}
    (hA : A = [] ∨ ∃ A', A = A' ++ ['\n'])
    (hnl : '\n' ∉ line) (hcr : stripCR line = line) :
    line ∈ splitLinesCRLF (A ++ line ++ '\n' :: B) := by
  unfold splitLinesCRLF
  rcases hA with rfl | ⟨A', rfl⟩
  · rw [List.nil_append, splitOnChar_append_sep, splitOnChar_no_sep hnl]
    exact mem_mapButLast_of_fix hcr [] _ (splitOnChar_ne_nil _ _)
  · have hassoc : (A' ++ ['\n']) ++ line ++ '\n' :: B = A' ++ '\n' :: (line ++ '\n' :: B) := by
      rw [List.append_assoc, List.append_assoc, List.singleton_append]
    rw [hassoc, splitOnChar_append_sep, splitOnChar_append_sep, splitOnChar_no_sep hnl]
    exact mem_mapButLast_of_fix hcr (splitOnChar '\n' A') _ (splitOnChar_ne_nil _ _)

theorem digitChar_spec (d : Nat) :
    isDig (digitChar d) = true ∧ jsIsWs (digitChar d) = false
    ∧ classChar (digitChar d) = false ∧ isLineTerm (digitChar d) = false
    ∧ digitChar d ≠ '\n' ∧ digitChar d ≠ '\t' ∧ digitChar d ≠ '\r'
    ∧ digitChar d ≠ ' ' := by
  unfold digitChar
  split <;> decide

theorem decGo_mem : ∀ (fuel n : Nat) (acc : JStr) (c : Char),
    c ∈ decGo fuel n acc → c ∈ acc ∨ ∃ d, c = digitChar d
  | 0, _, _, _, h => Or.inl h
  | fuel + 1, n, acc, c, h => by
    rw [decGo] at h
    by_cases hn : n = 0
    · rw [if_pos hn] at h
      exact Or.inl h
    · rw [if_neg hn] at h
      rcases decGo_mem fuel (n / 10) _ c h with hm | hm
      · rcases List.mem_cons.mp hm with rfl | hm'
        · exact Or.inr ⟨n % 10, rfl⟩
        · exact Or.inl hm'
      · exact Or.inr hm

theorem decRepr_mem {n : Nat} {c : Char} (h : c ∈ decRepr n) : ∃ d, c = digitChar d := by
  unfold decRepr at h
  by_cases hn : n = 0
  · rw [if_pos hn] at h
    rcases List.mem_singleton.mp h with rfl
    exact ⟨0, rfl⟩
  · rw [if_neg hn] at h
    rcases decGo_mem n n [] c h with hm | hm
    · cases hm
    · exact hm

theorem decGo_length : ∀ (fuel n : Nat) (acc : JStr),
    acc.length ≤ (decGo fuel n acc).length
  | 0, _, _ => Nat.le_refl _
  | fuel + 1, n, acc => by
    rw [decGo]
    by_cases hn : n = 0
    · rw [if_pos hn]
    · rw [if_neg hn]
      have h1 := decGo_length fuel (n / 10) (digitChar (n % 10) :: acc)
      have h2 : acc.length ≤ (digitChar (n % 10) :: acc).length := by
        rw [List.length_cons]
        omega
      omega

theorem decRepr_ne_nil {n : Nat} (h : n ≠ 0) : decRepr n ≠ [] := by
  unfold decRepr
  rw [if_neg h]
  obtain ⟨m, rfl⟩ : ∃ m, n = m + 1 := ⟨n - 1, by omega⟩
  rw [decGo, if_neg h]
  intro hcon
  have h1 := decGo_length m ((m + 1) / 10) [digitChar ((m + 1) % 10)]
  rw [hcon] at h1
  simp at h1

theorem takeWhile_append_all {p : Char → Bool} :
    ∀ {a : JStr}, (∀ c ∈ a, p c = true) → ∀ b, (a ++ b).takeWhile p = a ++ b.takeWhile p
  | [], _, b => rfl
  | c :: t, h, b => by
    rw [List.cons_append, List.takeWhile_cons, if_pos (h c (List.mem_cons_self _ _)),
      List.cons_append, takeWhile_append_all (fun x hx => h x (List.mem_cons_of_mem _ hx)) b]

theorem dropWhile_append_all {p : Char → Bool} :
    ∀ {a : JStr}, (∀ c ∈ a, p c = true) → ∀ b, (a ++ b).dropWhile p = b.dropWhile p
  | [], _, b => rfl
  | c :: t, h, b => by
    rw [List.cons_append, List.dropWhile_cons, if_pos (h c (List.mem_cons_self _ _))]
    exact dropWhile_append_all (fun x hx => h x (List.mem_cons_of_mem _ hx)) b

theorem findSome_desc (f : Nat → Option JStr) (v : JStr)
    (hbig : ∀ x, 2 ≤ x → f x = none) (h1 : f 1 = some v) :
    ∀ j : Nat, (List.range (j + 2)).reverse.findSome? f = some v
  | 0 => by
    have hr : (List.range 2).reverse = [1, 0] := rfl
    rw [hr]
    simp [List.findSome?, h1]
  | j + 1 => by
    have hr : List.range (j + 3) = List.range (j + 2) ++ [j + 2] := List.range_succ (j + 2)
    rw [hr, List.reverse_append]
    have hs : ([j + 2] : List Nat).reverse = [j + 2] := rfl
    rw [hs]
    rw [List.singleton_append, List.findSome?_cons, hbig (j + 2) (by omega)]
    exact findSome_desc f v hbig h1 j

theorem regexTail_shape (joined : JStr) (hjne : joined ≠ []) (hnotab : '\t' ∉ joined)
    (hnolt : ∀ c ∈ joined, isLineTerm c = false) :
    regexTail ('画' :: '\t' :: joined) = some joined := by
  unfold regexTail
  have hcls : ('画' :: '\t' :: joined).takeWhile classChar
      = '画' :: '\t' :: joined.takeWhile classChar := by
    rw [List.takeWhile_cons, if_pos (by decide), List.takeWhile_cons, if_pos (by decide)]
  rw [hcls]
  have hlen : ('画' :: '\t' :: joined.takeWhile classChar).length
      = (joined.takeWhile classChar).length + 2 := rfl
  rw [hlen]
  apply findSome_desc
  · intro x hx
    obtain ⟨y, rfl⟩ : ∃ y, x = y + 2 := ⟨x - 2, by omega⟩
    have hdrop : ('画' :: '\t' :: joined).drop (y + 2) = joined.drop y := rfl
    simp only [hdrop]
    cases hd : joined.drop y with
    | nil => rfl
    | cons a m2 =>
      have hmem : a ∈ joined :=
        List.drop_subset _ _ (by rw [hd]; exact List.mem_cons_self _ _)
      have ha : ¬ (a = '\t') := fun he => hnotab (he ▸ hmem)
      show (if a = '\t' ∧ m2 ≠ [] ∧ (∀ x ∈ m2, isLineTerm x = false)
        then some m2 else none) = none
      rw [if_neg (fun hcon => ha hcon.1)]
  · have hdrop : ('画' :: '\t' :: joined).drop 1 = '\t' :: joined := rfl
    simp only [hdrop]
    show (if True ∧ joined ≠ [] ∧ (∀ x ∈ joined, isLineTerm x = false)
      then some joined else none) = some joined
    rw [if_pos ⟨trivial, hjne, hnolt⟩]

theorem matchLine_lineShape (nn : Nat) (hn : nn ≠ 0) (joined : JStr) (hjne : joined ≠ [])
    (hnotab : '\t' ∉ joined) (hnolt : ∀ c ∈ joined, isLineTerm c = false) :
    matchLine (decRepr nn ++ '画' :: '\t' :: joined) = some joined := by
  unfold matchLine
  have hdig : ∀ c ∈ decRepr nn, isDig c = true := fun c hc => by
    obtain ⟨d, rfl⟩ := decRepr_mem hc
    exact (digitChar_spec d).1
  rw [takeWhile_append_all hdig, dropWhile_append_all hdig]
  have h0 : List.takeWhile isDig ('画' :: '\t' :: joined) = [] := by
    rw [List.takeWhile_cons, if_neg (by decide)]
  have h1 : List.dropWhile isDig ('画' :: '\t' :: joined) = '画' :: '\t' :: joined := by
    rw [List.dropWhile_cons, if_neg (by decide)]
  rw [h0, List.append_nil, h1]
  rw [if_neg (decRepr_ne_nil hn)]
  exact regexTail_shape joined hjne hnotab hnolt

/-! ### Lemmas: tokens of a rendered line -/

theorem normWs_cons₂ (c d : Char) (t : JStr) :
    normWs (c :: d :: t) =
      if jsIsWs c then
        (if jsIsWs d then normWs (d :: t) else ' ' :: normWs (d :: t))
      else c :: normWs (d :: t) := rfl

theorem normWs_intersperse : ∀ (l : List Char), (∀ c ∈ l, jsIsWs c = false) →
    normWs (List.intersperse ' ' l) = List.intersperse ' ' l
  | [], _ => rfl
  | [c], h => by
    show normWs [c] = [c]
    have hc := h c (List.mem_singleton.mpr rfl)
    show (if jsIsWs c then [' '] else [c]) = [c]
    rw [if_neg (by rw [hc]; simp)]
  | c :: d :: t, h => by
    rw [List.intersperse_cons₂]
    have hc := h c (List.mem_cons_self _ _)
    have hd := h d (List.mem_cons_of_mem _ (List.mem_cons_self _ _))
    cases t with
    | nil =>
      show normWs [c, ' ', d] = [c, ' ', d]
      rw [normWs_cons₂, if_neg (by rw [hc]; simp), normWs_cons₂,
        if_pos (by decide), if_neg (by rw [hd]; simp)]
      show c :: ' ' :: normWs [d] = _
      show c :: ' ' :: (if jsIsWs d then [' '] else [d]) = _
      rw [if_neg (by rw [hd]; simp)]
    | cons e t' =>
      rw [List.intersperse_cons₂]
      rw [normWs_cons₂, if_neg (by rw [hc]; simp)]
      rw [normWs_cons₂, if_pos (by decide), if_neg (by rw [hd]; simp)]
      have ih := normWs_intersperse (d :: e :: t')
        (fun x hx => h x (List.mem_cons_of_mem _ hx))
      rw [List.intersperse_cons₂] at ih
      rw [ih]

theorem splitSpace_intersperse : ∀ (l : List Char), l ≠ [] → (∀ c ∈ l, c ≠ ' ') →
    splitSpace (List.intersperse ' ' l) = l.map (fun c => [c])
  | [], h, _ => absurd rfl h
  | [c], _, hs => by
    show splitOnChar ' ' [c] = [[c]]
    exact splitOnChar_no_sep
      (fun hm => hs c (List.mem_singleton.mpr rfl) (List.mem_singleton.mp hm).symm)
  | c :: d :: t, _, hs => by
    show splitOnChar ' ' (List.intersperse ' ' (c :: d :: t)) = _
    rw [List.intersperse_cons₂]
    have hc : c ≠ ' ' := hs c (List.mem_cons_self _ _)
    have h1 : c :: ' ' :: List.intersperse ' ' (d :: t)
        = [c] ++ ' ' :: List.intersperse ' ' (d :: t) := rfl
    rw [h1, splitOnChar_append_sep,
      splitOnChar_no_sep (fun hm => hc (List.mem_singleton.mp hm).symm)]
    have ih := splitSpace_intersperse (d :: t) (by simp)
      (fun x hx => hs x (List.mem_cons_of_mem _ hx))
    have h2 : splitOnChar ' ' (List.intersperse ' ' (d :: t))
        = splitSpace (List.intersperse ' ' (d :: t)) := rfl
    rw [h2, ih]
    rfl

theorem intersperse_head? (s : Char) : ∀ (l : List Char),
    (List.intersperse s l).head? = l.head?
  | [] => rfl
  | [_] => rfl
  | c :: d :: t => by rw [List.intersperse_cons₂]; rfl

theorem intersperse_ne_nil (s : Char) : ∀ {l : List Char}, l ≠ [] →
    List.intersperse s l ≠ []
  | [], h, _ => absurd rfl h
  | [_], _, hcon => by cases hcon
  | c :: d :: t, _, hcon => by rw [List.intersperse_cons₂] at hcon; cases hcon

theorem intersperse_getLast? (s : Char) : ∀ (l : List Char),
    (List.intersperse s l).getLast? = l.getLast?
  | [] => rfl
  | [_] => rfl
  | c :: d :: t => by
    rw [List.intersperse_cons₂]
    have hne : List.intersperse s (d :: t) ≠ [] := intersperse_ne_nil s (by simp)
    have h1 : c :: s :: List.intersperse s (d :: t)
        = [c, s] ++ List.intersperse s (d :: t) := rfl
    rw [h1, getLast?_append_right hne, intersperse_getLast? s (d :: t)]
    have h2 : c :: d :: t = [c] ++ d :: t := rfl
    rw [h2, getLast?_append_right (by simp)]

theorem mem_intersperse (s : Char) : ∀ {l : List Char} {x : Char},
    x ∈ List.intersperse s l → x = s ∨ x ∈ l
  | [], x, h => by cases h
  | [c], x, h => Or.inr h
  | c :: d :: t, x, h => by
    rw [List.intersperse_cons₂] at h
    rcases List.mem_cons.mp h with rfl | h'
    · exact Or.inr (List.mem_cons_self _ _)
    · rcases List.mem_cons.mp h' with rfl | h'' 
      · exact Or.inl rfl
      · rcases mem_intersperse s h'' with hs | hm
        · exact Or.inl hs
        · exact Or.inr (List.mem_cons_of_mem _ hm)

theorem mem_of_head? {l : JStr} {c : Char} (h : l.head? = some c) : c ∈ l := by
  cases l with
  | nil => cases h
  | cons a t =>
    injection h with h1
    subst h1
    exact List.mem_cons_self _ _

theorem mem_of_getLast? {l : JStr} {c : Char} (h : l.getLast? = some c) : c ∈ l := by
  rw [← List.head?_reverse] at h
  rw [← List.mem_reverse]
  exact mem_of_head? h

theorem head?_append_left {l₁ l₂ : JStr} (h : l₁ ≠ []) :
    (l₁ ++ l₂).head? = l₁.head? := List.head?_append_of_ne_nil l₁ h

theorem jsTrimLeft_of_head {l : JStr}
    (h : ∀ c, l.head? = some c → jsIsWs c = false) : jsTrimLeft l = l := by
  cases l with
  | nil => rfl
  | cons a t =>
    unfold jsTrimLeft
    rw [List.dropWhile_cons, if_neg (by rw [h a rfl]; simp)]

theorem jsTrimRight_of_last {l : JStr}
    (h : ∀ c, l.getLast? = some c → jsIsWs c = false) : jsTrimRight l = l := by
  have h3 := jsTrimRight_append l [] h
  rw [List.append_nil] at h3
  have h4 : jsTrimRight ([] : JStr) = [] := rfl
  rw [h4, List.append_nil] at h3
  exact h3

theorem jsTrim_id {l : JStr}
    (hh : ∀ c, l.head? = some c → jsIsWs c = false)
    (hl : ∀ c, l.getLast? = some c → jsIsWs c = false) : jsTrim l = l := by
  unfold jsTrim
  rw [jsTrimLeft_of_head hh, jsTrimRight_of_last hl]

theorem stripCR_of_last {l : JStr} (h : ∀ c, l.getLast? = some c → c ≠ '\r') :
    stripCR l = l := by
  unfold stripCR
  split
  · next t' heq =>
    have ha : l.getLast? = some '\r' := by rw [← List.head?_reverse, heq]; rfl
    exact absurd rfl (h _ ha)
  · rfl

theorem lineTokens_joined (b : List Char) (hne : b ≠ [])
    (hws : ∀ c ∈ b, jsIsWs c = false) :
    lineTokens (joinSpace b) = b.map (fun c => [c]) := by
  unfold lineTokens joinSpace
  have hnsp : ∀ c ∈ b, c ≠ ' ' := fun c hc he => by
    have hw := hws c hc
    rw [he] at hw
    simp [jsIsWs] at hw
  rw [normWs_intersperse b hws]
  have hh : ∀ c, (List.intersperse ' ' b).head? = some c → jsIsWs c = false := by
    intro c hc
    rw [intersperse_head? ' ' b] at hc
    exact hws c (mem_of_head? hc)
  have hl : ∀ c, (List.intersperse ' ' b).getLast? = some c → jsIsWs c = false := by
    intro c hc
    rw [intersperse_getLast? ' ' b] at hc
    exact hws c (mem_of_getLast? hc)
  rw [jsTrim_id hh hl]
  exact splitSpace_intersperse b hne hnsp

/-! ### Lemmas: membership in the parsed set of a document -/

theorem tokFold_of_token : ∀ {toks : List JStr} {s : CharSet} {x : Char},
    [x] ∈ toks → x ∈ toks.foldl tokStep s
  | [], _, _, h => absurd h (List.not_mem_nil _)
  | t :: ts, s, x, h => by
    rcases List.mem_cons.mp h with rfl | hm
    · rw [List.foldl_cons]
      have hstep : tokStep s [x] = setInsert s x := rfl
      rw [hstep]
      exact mem_tokFold (mem_setInsert.mpr (Or.inl rfl))
    · rw [List.foldl_cons]
      exact tokFold_of_token hm

theorem lineStep_preserves {s : CharSet} {line : JStr} {x : Char} (h : x ∈ s) :
    x ∈ lineStep s line := by
  unfold lineStep
  cases matchLine line with
  | none => exact h
  | some m2 => exact mem_tokFold h

theorem lineFold_preserves : ∀ {lines : List JStr} {s : CharSet} {x : Char},
    x ∈ s → x ∈ lines.foldl lineStep s
  | [], _, _, h => h
  | L :: ls, s, x, h => by
    rw [List.foldl_cons]
    exact lineFold_preserves (lineStep_preserves h)

theorem mem_parse_of_line {text line m2 : JStr} {x : Char}
    (hline : line ∈ splitLinesCRLF text)
    (hm : matchLine line = some m2)
    (htok : [x] ∈ lineTokens m2) :
    x ∈ parseExistingChars text := by
  unfold parseExistingChars
  obtain ⟨l1, l2, heq⟩ := List.append_of_mem hline
  rw [heq, List.foldl_append, List.foldl_cons]
  apply lineFold_preserves
  have hls : lineStep (l1.foldl lineStep []) line
      = (lineTokens m2).foldl tokStep (l1.foldl lineStep []) := by
    unfold lineStep
    rw [hm]
  rw [hls]
  exact tokFold_of_token htok

/-! ### Lemmas: decomposing the formatted document around one body line -/

theorem foldl_append_flatten (f : Int → JStr) : ∀ (l : List Int) (acc : JStr),
    l.foldl (fun a k => a ++ f k) acc = acc ++ (l.map f).flatten
  | [], acc => by simp
  | k :: t, acc => by
    rw [List.foldl_cons, foldl_append_flatten f t, List.map_cons, List.flatten_cons,
      List.append_assoc]

theorem jsTrimLeft_append (A core : JStr)
    (hh : ∀ c, core.head? = some c → jsIsWs c = false) :
    jsTrimLeft (A ++ core) = jsTrimLeft A ++ core := by
  unfold jsTrimLeft
  rw [List.dropWhile_append]
  by_cases he : (A.dropWhile jsIsWs).isEmpty = true
  · rw [if_pos he, List.isEmpty_iff.mp he, List.nil_append]
    cases core with
    | nil => rfl
    | cons a t => rw [List.dropWhile_cons, if_neg (by rw [hh a rfl]; simp)]
  · rw [if_neg he]

theorem of_getLast?_eq {l : JStr} {c : Char} (h : l.getLast? = some c) :
    ∃ l', l = l' ++ [c] := by
  rw [← List.head?_reverse] at h
  cases hr : l.reverse with
  | nil => rw [hr] at h; cases h
  | cons a t =>
    rw [hr] at h
    injection h with h1
    refine ⟨t.reverse, ?_⟩
    have := congrArg List.reverse hr
    rw [List.reverse_reverse] at this
    rw [this, List.reverse_cons, h1]

theorem lineOf_ends (collLe : Char → Char → Bool) (m : StrokeMap) (k : Int) :
    ∃ u, lineOf collLe m k = u ++ ['\n'] :=
  ⟨intStr k ++ ('画' :: '\t' :: joinSpace (sortBucket collLe (lookupB m k))), rfl⟩

theorem flatten_lines_ends (f : Int → JStr)
    (hf : ∀ k, ∃ u, f k = u ++ ['\n']) : ∀ (l : List Int), l ≠ [] →
    ∃ u, (l.map f).flatten = u ++ ['\n']
  | [], h => absurd rfl h
  | [k], _ => by
    obtain ⟨u, hu⟩ := hf k
    exact ⟨u, by rw [List.map_cons, List.map_nil, List.flatten_cons,
      List.flatten_nil, List.append_nil, hu]⟩
  | k :: k' :: t, _ => by
    obtain ⟨u, hu⟩ := flatten_lines_ends f hf (k' :: t) (by simp)
    refine ⟨f k ++ u, ?_⟩
    rw [List.map_cons, List.flatten_cons, hu, List.append_assoc]

theorem jsTrim_middle_decomp (A₀ core R : JStr)
    (hhead : ∀ c, core.head? = some c → jsIsWs c = false)
    (hlast : ∀ c, core.getLast? = some c → jsIsWs c = false)
    (hne : core ≠ []) :
    ∃ B, jsTrim (A₀ ++ (core ++ '\n' :: R)) ++ ['\n']
      = jsTrimLeft A₀ ++ core ++ '\n' :: B := by
  have hh2 : ∀ c, (core ++ '\n' :: R).head? = some c → jsIsWs c = false := by
    intro c hc
    rw [head?_append_left hne] at hc
    exact hhead c hc
  have hl2 : ∀ c, (jsTrimLeft A₀ ++ core).getLast? = some c → jsIsWs c = false := by
    intro c hc
    rw [getLast?_append_right hne] at hc
    exact hlast c hc
  have hmain : jsTrim (A₀ ++ (core ++ '\n' :: R)) ++ ['\n']
      = (jsTrimLeft A₀ ++ core) ++ (jsTrimRight ('\n' :: R) ++ ['\n']) := by
    unfold jsTrim
    rw [jsTrimLeft_append A₀ _ hh2]
    have h2 : jsTrimLeft A₀ ++ (core ++ '\n' :: R) = (jsTrimLeft A₀ ++ core) ++ '\n' :: R :=
      (List.append_assoc _ _ _).symm
    rw [h2, jsTrimRight_append _ _ hl2, List.append_assoc]
  cases hrt : jsTrimRight ('\n' :: R) with
  | nil =>
    refine ⟨[], ?_⟩
    rw [hmain, hrt, List.nil_append]
  | cons a t =>
    have hpre := jsTrimRight_prefix_self ('\n' :: R)
    rw [hrt] at hpre
    obtain ⟨ha, -⟩ := List.cons_prefix_cons.mp hpre
    refine ⟨t ++ ['\n'], ?_⟩
    rw [hmain, hrt, ha]
    simp

theorem formatOutput_line_decomp (collLe : Char → Char → Bool) (m : StrokeMap)
    (raw : JStr) (n : Int) (hn : n ∈ keysOf m)
    (core : JStr) (hcore : lineOf collLe m n = core ++ ['\n'])
    (hhead : ∀ c, core.head? = some c → jsIsWs c = false)
    (hlast : ∀ c, core.getLast? = some c → jsIsWs c = false)
    (hne : core ≠ []) :
    ∃ A B, formatOutput collLe m raw = A ++ core ++ '\n' :: B
      ∧ (A = [] ∨ ∃ A', A = A' ++ ['\n']) := by
  have hsorted : n ∈ sortKeysAsc (keysOf m) := (sortKeysAsc_perm (keysOf m)).mem_iff.mpr hn
  obtain ⟨ks₁, ks₂, hks⟩ := List.append_of_mem hsorted
  have hbody : bodyOf collLe m
      = (ks₁.map (lineOf collLe m)).flatten
        ++ ((core ++ ['\n']) ++ (ks₂.map (lineOf collLe m)).flatten) := by
    unfold bodyOf
    rw [hks, foldl_append_flatten, List.nil_append, List.map_append, List.flatten_append,
      List.map_cons, List.flatten_cons, hcore]
  have hX : prefixRegion raw ++ '\n' :: '\n' :: bodyOf collLe m
        ++ '\n' :: '\n' :: suffixRegion raw
      = (prefixRegion raw ++ '\n' :: '\n' :: (ks₁.map (lineOf collLe m)).flatten)
        ++ (core ++ '\n' :: ((ks₂.map (lineOf collLe m)).flatten
            ++ '\n' :: '\n' :: suffixRegion raw)) := by
    rw [hbody]
    simp [List.append_assoc]
  obtain ⟨B, hB⟩ := jsTrim_middle_decomp
    (prefixRegion raw ++ '\n' :: '\n' :: (ks₁.map (lineOf collLe m)).flatten) core
    ((ks₂.map (lineOf collLe m)).flatten ++ '\n' :: '\n' :: suffixRegion raw)
    hhead hlast hne
  refine ⟨jsTrimLeft (prefixRegion raw ++ '\n' :: '\n' :: (ks₁.map (lineOf collLe m)).flatten),
    B, ?_, ?_⟩
  · unfold formatOutput
    rw [hX]
    exact hB
  · have hfl : (ks₁.map (lineOf collLe m)).flatten = []
        ∨ ∃ u, (ks₁.map (lineOf collLe m)).flatten = u ++ ['\n'] := by
      cases ks₁ with
      | nil => exact Or.inl rfl
      | cons k ks => exact Or.inr (flatten_lines_ends _ (lineOf_ends collLe m) _ (by simp))
    have hend : (prefixRegion raw ++ '\n' :: '\n'
        :: (ks₁.map (lineOf collLe m)).flatten).getLast? = some '\n' := by
      rcases hfl with hfl | ⟨u, hfl⟩
      · rw [hfl, getLast?_append_right (by simp)]
        rfl
      · rw [hfl, getLast?_append_right (by simp)]
        have h7 : ('\n' :: '\n' :: (u ++ ['\n']) : JStr) = ('\n' :: '\n' :: u) ++ ['\n'] := by
          simp
        rw [h7, getLast?_append_right (by simp)]
        rfl
    cases hA : jsTrimLeft (prefixRegion raw
        ++ '\n' :: '\n' :: (ks₁.map (lineOf collLe m)).flatten) with
    | nil => exact Or.inl rfl
    | cons a t =>
      right
      obtain ⟨u', hu'⟩ := jsTrimLeft_suffix
        (prefixRegion raw ++ '\n' :: '\n' :: (ks₁.map (lineOf collLe m)).flatten)
      rw [hA] at hu'
      have h8 : (u' ++ a :: t).getLast? = (a :: t).getLast? :=
        getLast?_append_right (by simp)
      rw [hu', hend] at h8
      exact of_getLast?_eq h8.symm

theorem jsIsWs_of_lineTerm {c : Char} (h : isLineTerm c = true) : jsIsWs c = true := by
  unfold isLineTerm at h
  unfold jsIsWs
  simp only [Bool.or_eq_true, decide_eq_true_eq] at h ⊢
  tauto

theorem gbs_entry_of {api : CncharAPI} {s : CharSet} {ch : Char} {n : Int}
    (hs : ch ∈ s) (hn : extendStrokeOf api ch = some n) (hn0 : n ≠ 0) :
    ∃ b', (n, b') ∈ groupByStroke api s ∧ ch ∈ b' := by
  have hx : ch ∈ lookupB (groupByStroke api s) n :=
    (mem_lookupB_gbs api s n ch).mpr ⟨hs, hn, hn0⟩
  unfold lookupB at hx
  cases hl : List.lookup n (groupByStroke api s) with
  | none => rw [hl] at hx; cases hx
  | some b' =>
    rw [hl] at hx
    exact ⟨b', mem_of_lookup_eq_some hl, hx⟩

/-- C6: round-trip — every character that the classifier places in stroke
bucket `n` reappears, after the formatted output document is re-parsed by
the loader, and re-classifying the re-parsed character set places it in
bucket `n` again (for character sets free of whitespace characters, as
every real charset is). -/
theorem claim_C6 (api : CncharAPI) (collLe : Char → Char → Bool)
    (chars : CharSet) (raw : JStr) (n : Int) (b : CharSet) (ch : Char)
    (hws : ∀ c ∈ chars, jsIsWs c = false)
    (hb : (n, b) ∈ groupByStroke api chars) (hch : ch ∈ b) :
    ch ∈ parseExistingChars (formatOutput collLe (groupByStroke api chars) raw)
    ∧ ∃ b', (n, b') ∈ groupByStroke api
        (parseExistingChars (formatOutput collLe (groupByStroke api chars) raw))
      ∧ ch ∈ b' := by
  obtain ⟨hchars, hstroke, hn0⟩ := gbs_entry_mem hb hch
  have hpos : 0 < n := by
    have := extendStrokeOf_nonneg hstroke
    omega
  have hbws : ∀ x ∈ b, jsIsWs x = false := fun x hx => hws x (gbs_entry_mem hb hx).1
  have hlook : lookupB (groupByStroke api chars) n = b := by
    have hl := lookup_eq_some_of_mem (gbs_keys_nodup api chars) hb
    unfold lookupB
    rw [hl]
    rfl
  have hchsb : ch ∈ sortBucket collLe b := (sortBucket_perm collLe b).mem_iff.mpr hch
  have hsbne : sortBucket collLe b ≠ [] := List.ne_nil_of_mem hchsb
  have hsbws : ∀ c ∈ sortBucket collLe b, jsIsWs c = false :=
    fun c hc => hbws c ((sortBucket_perm collLe b).mem_iff.mp hc)
  have hjmem : ∀ c ∈ joinSpace (sortBucket collLe b), c = ' ' ∨ jsIsWs c = false := by
    intro c hc
    rcases mem_intersperse ' ' hc with hs | hm
    · exact Or.inl hs
    · exact Or.inr (hsbws c hm)
  have hjne : joinSpace (sortBucket collLe b) ≠ [] :=
    intersperse_ne_nil ' ' hsbne
  have hnotab : '\t' ∉ joinSpace (sortBucket collLe b) := by
    intro hc
    rcases hjmem '\t' hc with hs | hm
    · exact absurd hs (by decide)
    · simp [jsIsWs] at hm
  have hnolt : ∀ c ∈ joinSpace (sortBucket collLe b), isLineTerm c = false := by
    intro c hc
    rcases hjmem c hc with rfl | hm
    · decide
    · cases hlt : isLineTerm c
      · rfl
      · rw [jsIsWs_of_lineTerm hlt] at hm
        cases hm
  have hint : intStr n = decRepr n.toNat := by
    unfold intStr
    rw [if_neg (by omega)]
  have htn0 : n.toNat ≠ 0 := by omega
  have hcore : lineOf collLe (groupByStroke api chars) n
      = (decRepr n.toNat ++ ('画' :: '\t' :: joinSpace (sortBucket collLe b))) ++ ['\n'] := by
    unfold lineOf
    rw [hlook, hint]
  have hdignw : ∀ c ∈ decRepr n.toNat, jsIsWs c = false := by
    intro c hc
    obtain ⟨d, rfl⟩ := decRepr_mem hc
    exact (digitChar_spec d).2.1
  have hcorene : decRepr n.toNat ++ ('画' :: '\t' :: joinSpace (sortBucket collLe b)) ≠ [] := by
    simp
  have hhead : ∀ c, (decRepr n.toNat
      ++ ('画' :: '\t' :: joinSpace (sortBucket collLe b))).head?
      = some c → jsIsWs c = false := by
    intro c hc
    rw [head?_append_left (decRepr_ne_nil htn0)] at hc
    exact hdignw c (mem_of_head? hc)
  have hlastc : ∀ c, (decRepr n.toNat
      ++ ('画' :: '\t' :: joinSpace (sortBucket collLe b))).getLast?
      = some c → jsIsWs c = false := by
    intro c hc
    rw [getLast?_append_right (by simp)] at hc
    have h2 : ('画' :: '\t' :: joinSpace (sortBucket collLe b) : JStr)
        = ['画', '\t'] ++ joinSpace (sortBucket collLe b) := rfl
    rw [h2, getLast?_append_right hjne] at hc
    unfold joinSpace at hc
    rw [intersperse_getLast?] at hc
    exact hsbws c (mem_of_getLast? hc)
  have hn_key : n ∈ keysOf (groupByStroke api chars) := by
    have := List.mem_map_of_mem Prod.fst hb
    simpa [keysOf] using this
  obtain ⟨A, B, hfmt, hA⟩ := formatOutput_line_decomp collLe (groupByStroke api chars)
    raw n hn_key _ hcore hhead hlastc hcorene
  have hnonl : '\n' ∉ decRepr n.toNat ++ ('画' :: '\t' :: joinSpace (sortBucket collLe b)) := by
    intro hc
    rcases List.mem_append.mp hc with hm | hm
    · have := hdignw _ hm
      simp [jsIsWs] at this
    · rcases List.mem_cons.mp hm with he | hm2
      · exact absurd he (by decide)
      · rcases List.mem_cons.mp hm2 with he | hm3
        · exact absurd he (by decide)
        · rcases hjmem _ hm3 with hs | hw
          · exact absurd hs (by decide)
          · simp [jsIsWs] at hw
  have hstrip : stripCR (decRepr n.toNat ++ ('画' :: '\t' :: joinSpace (sortBucket collLe b)))
      = decRepr n.toNat ++ ('画' :: '\t' :: joinSpace (sortBucket collLe b)) := by
    apply stripCR_of_last
    intro c hc hcr
    have hw := hlastc c hc
    rw [hcr] at hw
    simp [jsIsWs] at hw
  have hline : decRepr n.toNat ++ ('画' :: '\t' :: joinSpace (sortBucket collLe b))
      ∈ splitLinesCRLF (formatOutput collLe (groupByStroke api chars) raw) := by
    rw [hfmt]
    exact mem_splitLines_of_decomp hA hnonl hstrip
  have hmatch : matchLine (decRepr n.toNat ++ ('画' :: '\t' :: joinSpace (sortBucket collLe b)))
      = some (joinSpace (sortBucket collLe b)) :=
    matchLine_lineShape n.toNat htn0 _ hjne hnotab hnolt
  have htoks : [ch] ∈ lineTokens (joinSpace (sortBucket collLe b)) := by
    rw [lineTokens_joined _ hsbne hsbws]
    exact List.mem_map_of_mem _ hchsb
  have hparse : ch ∈ parseExistingChars (formatOutput collLe (groupByStroke api chars) raw) :=
    mem_parse_of_line hline hmatch htoks
  exact ⟨hparse, gbs_entry_of hparse hstroke hn0⟩

theorem claim_C6_witness :
    '一' ∈ parseExistingChars (formatOutput collW (groupByStroke apiOne ['一']) [])
    ∧ ∃ b', (1, b') ∈ groupByStroke apiOne
        (parseExistingChars (formatOutput collW (groupByStroke apiOne ['一']) []))
      ∧ '一' ∈ b' :=
  claim_C6 apiOne collW ['一'] [] 1 ['一'] '一' (by decide) (by decide) (by decide)

/-! ### Lemmas: the header anchor cannot appear in a rendered body line -/

theorem hasAdjSolid_cons₂ (c d : Char) (t : JStr) :
    hasAdjSolid (c :: d :: t) = ((solid c && solid d) || hasAdjSolid (d :: t)) := rfl

theorem hasAdjSolid_cons_of {c : Char} {l : JStr} (h : hasAdjSolid l = true) :
    hasAdjSolid (c :: l) = true := by
  cases l with
  | nil => cases h
  | cons d t => rw [hasAdjSolid_cons₂, h, Bool.or_true]

theorem hasAdjSolid_append_left : ∀ (u t : JStr), hasAdjSolid u = true →
    hasAdjSolid (u ++ t) = true
  | [], _, h => by cases h
  | [c], _, h => by cases h
  | c :: d :: u', t, h => by
    rw [hasAdjSolid_cons₂] at h
    rw [List.cons_append, List.cons_append, hasAdjSolid_cons₂]
    rcases Bool.or_eq_true_iff.mp h with h1 | h1
    · rw [h1, Bool.true_or]
    · have hr := hasAdjSolid_append_left (d :: u') t h1
      rw [List.cons_append] at hr
      rw [hr, Bool.or_true]

theorem hasAdjSolid_append_right (u : JStr) {t : JStr} (h : hasAdjSolid t = true) :
    hasAdjSolid (u ++ t) = true := by
  induction u with
  | nil => exact h
  | cons c u' ih =>
    rw [List.cons_append]
    exact hasAdjSolid_cons_of ih

theorem hasAdjSolid_mono {u v : JStr} (h : u <:+: v) (hu : hasAdjSolid u = true) :
    hasAdjSolid v = true := by
  obtain ⟨s, t, rfl⟩ := h
  have h1 := hasAdjSolid_append_right s (hasAdjSolid_append_left u t hu)
  rwa [← List.append_assoc] at h1

theorem hasAdjSolid_of_no_solid : ∀ {l : JStr}, (∀ c ∈ l, solid c = false) →
    hasAdjSolid l = false
  | [], _ => rfl
  | [_], _ => rfl
  | c :: d :: t, h => by
    rw [hasAdjSolid_cons₂, h c (List.mem_cons_self _ _), Bool.false_and, Bool.false_or]
    exact hasAdjSolid_of_no_solid (fun x hx => h x (List.mem_cons_of_mem _ hx))

theorem hasAdjSolid_append_false : ∀ {a b : JStr},
    hasAdjSolid a = false → hasAdjSolid b = false →
    (∀ x y, a.getLast? = some x → b.head? = some y → (solid x && solid y) = false) →
    hasAdjSolid (a ++ b) = false
  | [], b, _, hb, _ => hb
  | [c], b, _, hb, hbd => by
    rw [List.singleton_append]
    cases b with
    | nil => rfl
    | cons d t =>
      rw [hasAdjSolid_cons₂, hbd c d rfl rfl, Bool.false_or]
      exact hb
  | c :: d :: t, b, ha, hb, hbd => by
    rw [hasAdjSolid_cons₂] at ha
    rcases Bool.or_eq_false_iff.mp ha with ⟨h1, h2⟩
    rw [List.cons_append, List.cons_append, hasAdjSolid_cons₂, h1, Bool.false_or]
    have hbd' : ∀ x y, (d :: t).getLast? = some x → b.head? = some y
        → (solid x && solid y) = false := by
      intro x y hx hy
      apply hbd x y ?_ hy
      have h3 : (c :: d :: t : JStr) = [c] ++ d :: t := rfl
      rw [h3, getLast?_append_right (by simp)]
      exact hx
    have hrec := hasAdjSolid_append_false h2 hb hbd'
    rw [List.cons_append] at hrec
    exact hrec

theorem decRepr_ne_nil₀ (nn : Nat) : decRepr nn ≠ [] := by
  by_cases h : nn = 0
  · subst h
    decide
  · exact decRepr_ne_nil h

theorem hasAdjSolid_decRepr (nn : Nat) : hasAdjSolid (decRepr nn) = false :=
  hasAdjSolid_of_no_solid (fun c hc => by
    obtain ⟨d, rfl⟩ := decRepr_mem hc
    unfold solid
    rw [(digitChar_spec d).1]
    simp)

theorem hasAdjSolid_intStr (k : Int) : hasAdjSolid (intStr k) = false := by
  unfold intStr
  by_cases hk : k < 0
  · rw [if_pos hk]
    cases hd : decRepr (-k).toNat with
    | nil => rfl
    | cons a t =>
      rw [hasAdjSolid_cons₂]
      have ha : isDig a = true := by
        obtain ⟨d, hdd⟩ := decRepr_mem (hd ▸ List.mem_cons_self a t)
        rw [hdd]
        exact (digitChar_spec d).1
      have hsa : solid a = false := by
        unfold solid
        rw [ha]
        simp
      rw [hsa, Bool.and_false, Bool.false_or, ← hd]
      exact hasAdjSolid_decRepr _
  · rw [if_neg hk]
    exact hasAdjSolid_decRepr _

theorem hasAdjSolid_joinSpace : ∀ (l : List Char), hasAdjSolid (joinSpace l) = false
  | [] => rfl
  | [_] => rfl
  | c :: d :: t => by
    unfold joinSpace
    rw [List.intersperse_cons₂, hasAdjSolid_cons₂]
    have hs : solid ' ' = false := by decide
    rw [hs, Bool.and_false, Bool.false_or]
    cases t with
    | nil =>
      show hasAdjSolid [' ', d] = false
      rw [hasAdjSolid_cons₂, hs, Bool.false_and, Bool.false_or]
      rfl
    | cons e t' =>
      rw [List.intersperse_cons₂, hasAdjSolid_cons₂, hs, Bool.false_and, Bool.false_or]
      have ih := hasAdjSolid_joinSpace (d :: e :: t')
      unfold joinSpace at ih
      rw [List.intersperse_cons₂] at ih
      exact ih

theorem intStr_last_dig {k : Int} {x : Char} (h : (intStr k).getLast? = some x) :
    isDig x = true := by
  unfold intStr at h
  by_cases hk : k < 0
  · rw [if_pos hk] at h
    have h2 : ('-' :: decRepr (-k).toNat : JStr) = ['-'] ++ decRepr (-k).toNat := rfl
    rw [h2, getLast?_append_right (decRepr_ne_nil₀ _)] at h
    obtain ⟨d, rfl⟩ := decRepr_mem (mem_of_getLast? h)
    exact (digitChar_spec d).1
  · rw [if_neg hk] at h
    obtain ⟨d, rfl⟩ := decRepr_mem (mem_of_getLast? h)
    exact (digitChar_spec d).1

theorem hasAdjSolid_lineContent (collLe : Char → Char → Bool) (m : StrokeMap) (k : Int) :
    hasAdjSolid (intStr k
      ++ ('画' :: '\t' :: joinSpace (sortBucket collLe (lookupB m k)))) = false := by
  have hb : hasAdjSolid ('画' :: '\t' :: joinSpace (sortBucket collLe (lookupB m k)))
      = false := by
    rw [hasAdjSolid_cons₂]
    have ht : solid '\t' = false := by decide
    rw [ht, Bool.and_false, Bool.false_or]
    cases hj : joinSpace (sortBucket collLe (lookupB m k)) with
    | nil => rfl
    | cons a t =>
      rw [hasAdjSolid_cons₂, ht, Bool.false_and, Bool.false_or, ← hj]
      exact hasAdjSolid_joinSpace _
  apply hasAdjSolid_append_false (hasAdjSolid_intStr k) hb
  intro x y hx hy
  have hxd := intStr_last_dig hx
  unfold solid
  rw [hxd]
  simp

theorem prefix_no_nl : ∀ {u A B : JStr}, u <+: A ++ '\n' :: B → '\n' ∉ u → u <+: A
  | [], _, _, _, _ => List.nil_prefix
  | c :: u', A, B, h, hn => by
    cases A with
    | nil =>
      rw [List.nil_append] at h
      obtain ⟨hc, -⟩ := List.cons_prefix_cons.mp h
      subst hc
      exact absurd (List.mem_cons_self _ _) hn
    | cons a A' =>
      rw [List.cons_append] at h
      obtain ⟨hc, h'⟩ := List.cons_prefix_cons.mp h
      subst hc
      exact List.cons_prefix_cons.mpr
        ⟨rfl, prefix_no_nl h' (fun hm => hn (List.mem_cons_of_mem _ hm))⟩

theorem infix_split : ∀ (A : JStr) {u B : JStr}, u <:+: A ++ '\n' :: B → '\n' ∉ u →
    u <:+: A ∨ u <:+: B
  | [], u, B, h, hn => by
    rw [List.nil_append] at h
    rcases List.infix_cons_iff.mp h with hp | hi
    · cases u with
      | nil => exact Or.inl List.nil_infix
      | cons c u' =>
        obtain ⟨hc, -⟩ := List.cons_prefix_cons.mp hp
        subst hc
        exact absurd (List.mem_cons_self _ _) hn
    · exact Or.inr hi
  | a :: A', u, B, h, hn => by
    rw [List.cons_append] at h
    rcases List.infix_cons_iff.mp h with hp | hi
    · have hp' : u <+: (a :: A') ++ '\n' :: B := by
        rw [List.cons_append]
        exact hp
      exact Or.inl (prefix_no_nl hp' hn).isInfix
    · rcases infix_split A' hi hn with h1 | h1
      · exact Or.inl (List.infix_cons h1)
      · exact Or.inr h1

theorem infix_flatten_lines (u : JStr) (hu : hasAdjSolid u = true) :
    ∀ (L : List JStr), (∀ l ∈ L, ∃ c, l = c ++ ['\n'] ∧ hasAdjSolid c = false) →
    ∀ (T : JStr), u <:+: L.flatten ++ T → '\n' ∉ u → u <:+: T
  | [], _, T, h, _ => by
    rw [List.flatten_nil, List.nil_append] at h
    exact h
  | l :: L', hL, T, h, hn => by
    obtain ⟨c, hc, hcs⟩ := hL l (List.mem_cons_self _ _)
    rw [List.flatten_cons, hc] at h
    have hassoc : ((c ++ ['\n']) ++ L'.flatten) ++ T = c ++ '\n' :: (L'.flatten ++ T) := by
      simp
    rw [hassoc] at h
    rcases infix_split c h hn with h1 | h1
    · rw [hasAdjSolid_mono h1 hu] at hcs
      simp at hcs
    · exact infix_flatten_lines u hu L' (fun x hx => hL x (List.mem_cons_of_mem _ hx)) T h1 hn

theorem firstOcc_min : ∀ (hay : JStr) {needle : JStr} {i : Nat},
    firstOcc hay needle = some i → ∀ j, j < i → needle.isPrefixOf (hay.drop j) = false
  | [], needle, i, h, j, hj => by
    unfold firstOcc at h
    by_cases hn : needle = []
    · rw [if_pos hn] at h
      injection h with h1
      exact absurd hj (by omega)
    · rw [if_neg hn] at h
      cases h
  | c :: t, needle, i, h, j, hj => by
    unfold firstOcc at h
    cases hp : needle.isPrefixOf (c :: t) with
    | true =>
      rw [hp, if_pos rfl] at h
      injection h with h1
      exact absurd hj (by omega)
    | false =>
      rw [hp] at h
      rw [if_neg (by simp)] at h
      rcases Option.map_eq_some'.mp h with ⟨i', hi', hii⟩
      cases j with
      | zero =>
        rw [List.drop_zero]
        exact hp
      | succ j' =>
        have hd : (c :: t).drop (j' + 1) = t.drop j' := rfl
        rw [hd]
        exact firstOcc_min t hi' j' (by omega)

theorem not_infix_take_of_firstOcc {raw : JStr} {i : Nat}
    (h1 : firstOcc raw anchorHeader = some i) :
    ¬ anchorHeader <:+: raw.take i := by
  intro hinf
  obtain ⟨s, t, hst⟩ := hinf
  have hdrop : raw.drop s.length = anchorHeader ++ (t ++ raw.drop i) :=
    calc raw.drop s.length
        = ((s ++ anchorHeader ++ t) ++ raw.drop i).drop s.length := by
          rw [hst, List.take_append_drop]
      _ = (s ++ ((anchorHeader ++ t) ++ raw.drop i)).drop s.length := by
          rw [← List.append_assoc, ← List.append_assoc]
      _ = (anchorHeader ++ t) ++ raw.drop i := List.drop_left _ _
      _ = anchorHeader ++ (t ++ raw.drop i) := List.append_assoc _ _ _
  have hpre : anchorHeader.isPrefixOf (raw.drop s.length) = true := by
    rw [hdrop]
    exact List.isPrefixOf_iff_prefix.mpr (List.prefix_append _ _)
  have hlen : s.length < i := by
    have hlg := congrArg List.length hst
    rw [List.length_append, List.length_append, List.length_take] at hlg
    have hal : anchorHeader.length = 12 := by decide
    rw [hal] at hlg
    omega
  have hmin := firstOcc_min raw h1 s.length hlen
  rw [hmin] at hpre
  cases hpre

theorem not_infix_prefixRegion {raw : JStr} {i : Nat}
    (h1 : firstOcc raw anchorHeader = some i) :
    ¬ anchorHeader <:+: prefixRegion raw := by
  intro h
  apply not_infix_take_of_firstOcc h1
  have h2 : prefixRegion raw = jsTrim (raw.take i) := by
    unfold prefixRegion
    rw [h1]
  rw [h2] at h
  exact h.trans (jsTrim_infix_self _)

theorem anchor_not_infix_format (collLe : Char → Char → Bool) (m : StrokeMap) (raw : JStr)
    (hpre : ¬ anchorHeader <:+: prefixRegion raw)
    (hsuf : ¬ anchorHeader <:+: suffixRegion raw) :
    ¬ anchorHeader <:+: formatOutput collLe m raw := by
  intro h
  have hnl : '\n' ∉ anchorHeader := by decide
  have hne : anchorHeader ≠ [] := by decide
  have hadj : hasAdjSolid anchorHeader = true := by decide
  unfold formatOutput at h
  rcases infix_split _ h hnl with h1 | h1
  swap
  · rw [List.infix_nil] at h1
    exact hne h1
  have h2 := h1.trans (jsTrim_infix_self _)
  rcases infix_split _ h2 hnl with h3 | h3
  swap
  · rcases infix_split [] (by rw [List.nil_append]; exact h3) hnl with h4 | h4
    · rw [List.infix_nil] at h4
      exact hne h4
    · exact hsuf h4
  rcases infix_split _ h3 hnl with h5 | h5
  · exact hpre h5
  rcases infix_split [] (by rw [List.nil_append]; exact h5) hnl with h6 | h6
  · rw [List.infix_nil] at h6
    exact hne h6
  have hbodyfl : bodyOf collLe m
      = ((sortKeysAsc (keysOf m)).map (lineOf collLe m)).flatten := by
    unfold bodyOf
    rw [foldl_append_flatten, List.nil_append]
  have hlines : ∀ l ∈ (sortKeysAsc (keysOf m)).map (lineOf collLe m),
      ∃ c, l = c ++ ['\n'] ∧ hasAdjSolid c = false := by
    intro l hl
    obtain ⟨k, -, rfl⟩ := List.mem_map.mp hl
    exact ⟨intStr k ++ ('画' :: '\t' :: joinSpace (sortBucket collLe (lookupB m k))),
      rfl, hasAdjSolid_lineContent collLe m k⟩
  have h7 := infix_flatten_lines anchorHeader hadj
    ((sortKeysAsc (keysOf m)).map (lineOf collLe m)) hlines []
    (by rw [List.append_nil, ← hbodyfl]; exact h6) hnl
  rw [List.infix_nil] at h7
  exact hne h7

/-- C10: when the baseline document contains the header anchor, the
formatted prefix region is the trimmed text strictly before the anchor's
first occurrence; the anchor is then absent from the prefix region and —
unless it also occurs in the suffix region — from the whole formatted
output; and a region whose underlying text has leading or trailing
whitespace is not preserved byte-for-byte. -/
theorem claim_C10 (collLe : Char → Char → Bool) (m : StrokeMap) (raw : JStr) (i : Nat)
    (h1 : firstOcc raw anchorHeader = some i)
    (h2 : ¬ anchorHeader <:+: suffixRegion raw) :
    prefixRegion raw = jsTrim (raw.take i)
    ∧ ¬ anchorHeader <:+: prefixRegion raw
    ∧ ¬ anchorHeader <:+: formatOutput collLe m raw
    ∧ (∀ c, (raw.take i).head? = some c → jsIsWs c = true → prefixRegion raw ≠ raw.take i)
    ∧ (∀ c, (raw.take i).getLast? = some c → jsIsWs c = true → prefixRegion raw ≠ raw.take i)
    ∧ (∀ j c, firstOcc raw anchorDigits = some j → (raw.drop j).head? = some c →
        jsIsWs c = true → suffixRegion raw ≠ raw.drop j)
    ∧ (∀ j c, firstOcc raw anchorDigits = some j → (raw.drop j).getLast? = some c →
        jsIsWs c = true → suffixRegion raw ≠ raw.drop j) := by
  have hpr : prefixRegion raw = jsTrim (raw.take i) := by
    unfold prefixRegion
    rw [h1]
  refine ⟨hpr, not_infix_prefixRegion h1,
    anchor_not_infix_format collLe m raw (not_infix_prefixRegion h1) h2, ?_, ?_, ?_, ?_⟩
  · intro c hc hw heq
    rw [hpr] at heq
    have hf := jsTrim_head (l := raw.take i) (by rw [heq]; exact hc)
    rw [hw] at hf
    cases hf
  · intro c hc hw heq
    rw [hpr] at heq
    have hf := jsTrim_last (l := raw.take i) (by rw [heq]; exact hc)
    rw [hw] at hf
    cases hf
  · intro j c hj hc hw heq
    have hsr : suffixRegion raw = jsTrim (raw.drop j) := by
      unfold suffixRegion
      rw [hj]
    rw [hsr] at heq
    have hf := jsTrim_head (l := raw.drop j) (by rw [heq]; exact hc)
    rw [hw] at hf
    cases hf
  · intro j c hj hc hw heq
    have hsr : suffixRegion raw = jsTrim (raw.drop j) := by
      unfold suffixRegion
      rw [hj]
    rw [hsr] at heq
    have hf := jsTrim_last (l := raw.drop j) (by rw [heq]; exact hc)
    rw [hw] at hf
    cases hf

theorem claim_C10_witness :
    prefixRegion c10raw = jsTrim (c10raw.take 2)
    ∧ ¬ anchorHeader <:+: prefixRegion c10raw
    ∧ ¬ anchorHeader <:+: formatOutput collW [] c10raw
    ∧ (∀ c, (c10raw.take 2).head? = some c → jsIsWs c = true
        → prefixRegion c10raw ≠ c10raw.take 2)
    ∧ (∀ c, (c10raw.take 2).getLast? = some c → jsIsWs c = true
        → prefixRegion c10raw ≠ c10raw.take 2)
    ∧ (∀ j c, firstOcc c10raw anchorDigits = some j → (c10raw.drop j).head? = some c →
        jsIsWs c = true → suffixRegion c10raw ≠ c10raw.drop j)
    ∧ (∀ j c, firstOcc c10raw anchorDigits = some j → (c10raw.drop j).getLast? = some c →
        jsIsWs c = true → suffixRegion c10raw ≠ c10raw.drop j) :=
  claim_C10 collW [] c10raw 2 (by decide) (by decide)
